import Mathlib

/-!
# Verification of the DJ-JPG track-selection pipeline

Shallow embedding of the track-candidate selection and ranking pipeline of
`src/pages/api/playlist-preview.ts` (and the fallback-search loop of the
sibling handler found in `src/unnamed/part_007`).

Modelling conventions:
* A Spotify track object is modelled by `Track`.  A JS "falsy" `id`
  (missing/empty) is modelled by the empty string; an absent `popularity`
  is modelled by `0` (the code only ever reads `popularity || 0`).
* The external catalog is modelled by the stream of track records the
  catalog calls yield, in processing order (`catalog : List Track`): the
  aggregation phase inserts them one by one with the dedup / per-artist-cap
  rule the source repeats at every insertion site (playlist-preview.ts
  lines 448-463, 499-514, 537-553).  Every pool the real handler can build
  is `aggregateTracks ts` for some stream `ts`, and conversely.
* `Math.random()`-driven shuffles take an explicit source of random
  draws `r : Nat → Nat`; the Fisher-Yates index is `r i % (i+1)`,
  matching `Math.floor(Math.random() * (i + 1))` for every possible
  sequence of random draws.
* JS `Array.prototype.sort` is stable (ES2019); it is modelled by the
  stable `List.insertionSort` with the preorder induced by the comparator.
* JS string operations are modelled on `List Char`:
  `toLowerCase` (ASCII), `includes`, `split(', ')`, and the
  `\b<word>\b` regex test used for the mood filter.
-/

/-- A catalog track record, with the fields the pipeline reads.
`artists` is the ordered list of artist names (`track.artists[i].name`). -/
structure Track where
  id : String
  name : String
  artists : List String
  album : String
  previewUrl : Option String
  popularity : Nat
  deriving DecidableEq, Repr

instance : Inhabited Track := ⟨⟨"", "", [], "", none, 0⟩⟩

namespace DJ

/-- `track.artists?.[0]?.name || ''`: the primary artist name of a raw track. -/
def rawPrimary (t : Track) : String := t.artists.headD ""

/-- ASCII `toLowerCase`, as JS applies it to the ASCII data at hand. -/
def lowerStr (s : String) : String := ⟨s.data.map Char.toLower⟩

/-- JS `String.prototype.includes` on char lists. -/
def containsSub (hay needle : List Char) : Bool :=
  needle.isPrefixOf hay ||
    match hay with
    | [] => false
    | _ :: t => containsSub t needle

/-- JS `hay.includes(needle)`. -/
def strIncludes (hay needle : String) : Bool := containsSub hay.data needle.data

/-- JS `"a, b".split(', ')` specialised to the separator `', '`:
splits on each non-overlapping occurrence, left to right.
First argument is the reversed accumulator of the current chunk. -/
def splitCS (acc : List Char) : List Char → List (List Char)
  | [] => [acc.reverse]
  | [c] => [(c :: acc).reverse]
  | c1 :: c2 :: rest =>
    if c1 = ',' ∧ c2 = ' ' then acc.reverse :: splitCS [] rest
    else splitCS (c1 :: acc) (c2 :: rest)

/-- `track.artists.map(a => a.name).join(', ')`: the `artists` field of the
mapped track record the handler builds. -/
def joinArtists : List String → String
  | [] => ""
  | [a] => a
  | a :: rest => a ++ ", " ++ joinArtists rest

/-- `record.artists.split(', ')[0] || ''` applied to a mapped record whose
`artists` string was produced by `joinArtists` from the raw track: the
artist key the final dedup/cap pass and the backfill count initialisers use
(playlist-preview.ts lines 769, 825, 874). -/
def mappedKey (t : Track) : String :=
  ⟨((splitCS [] (joinArtists t.artists).data).headD [])⟩

/-- Number of entries of `l` whose primary (raw) artist is `p`. -/
def countRaw (l : List Track) (p : String) : Nat :=
  (l.filter (fun t => rawPrimary t = p)).length

/-- Number of entries of `l` whose mapped artist key is `k`. -/
def countKey (l : List Track) (k : String) : Nat :=
  (l.filter (fun t => mappedKey t = k)).length

/-! ## The Fisher-Yates shuffle helper (`shuffleArray`, lines 352-360) -/

/-- One JS destructuring swap `[a[i], a[j]] = [a[j], a[i]]` on lists;
out-of-range indices leave the list unchanged (they never occur in use). -/
def swapL (l : List α) (i j : Nat) : List α :=
  match l.get? i, l.get? j with
  | some a, some b => (l.set i b).set j a
  | _, _ => l

/-- The `for (let i = arr.length - 1; i > 0; i--)` loop of `shuffleArray`,
with the random draw for index `i` given by `r i`, so that
`j = Math.floor(Math.random() * (i + 1))` is `r i % (i + 1)`. -/
def fyGo (r : Nat → Nat) : Nat → List α → List α
  | 0, l => l
  | i + 1, l => fyGo r i (swapL l (i + 1) (r (i + 1) % (i + 2)))

/-- `shuffleArray` (Fisher-Yates on a copy of the input). -/
def shuffleArray (r : Nat → Nat) (l : List α) : List α :=
  fyGo r (l.length - 1) l

theorem pullout : ∀ (t : List α) (k : Nat) (h : k < t.length) (a : α),
    List.Perm ((t.get ⟨k, h⟩) :: t.set k a) (a :: t)
  | x :: s, 0, _, a => by simpa using List.Perm.swap a x s
  | x :: s, k + 1, h, a => by
    have hk : k < s.length := Nat.lt_of_succ_lt_succ h
    have e1 : (x :: s).get ⟨k + 1, h⟩ :: (x :: s).set (k + 1) a
        = s.get ⟨k, hk⟩ :: x :: s.set k a := by simp [List.set]
    rw [e1]
    have p1 : List.Perm (s.get ⟨k, hk⟩ :: x :: s.set k a)
        (x :: s.get ⟨k, hk⟩ :: s.set k a) := List.Perm.swap _ _ _
    have p2 : List.Perm (x :: s.get ⟨k, hk⟩ :: s.set k a) (x :: a :: s) :=
      (pullout s k hk a).cons x
    have p3 : List.Perm (x :: a :: s) (a :: x :: s) := List.Perm.swap _ _ _
    exact (p1.trans p2).trans p3

theorem swapL_eq_of_get (l : List α) (i j : Nat) (a b : α)
    (hi : l.get? i = some a) (hj : l.get? j = some b) :
    swapL l i j = (l.set i b).set j a := by
  simp [swapL, ← List.get?_eq_getElem?, hi, hj]

theorem swapL_perm (l : List α) (i j : Nat) : List.Perm (swapL l i j) l := by
  cases hi : l.get? i with
  | none => simp [swapL, ← List.get?_eq_getElem?, hi]
  | some a =>
    cases hj : l.get? j with
    | none => simp [swapL, ← List.get?_eq_getElem?, hi, hj]
    | some b =>
      rw [swapL_eq_of_get l i j a b hi hj]
      obtain ⟨hil, ha⟩ := List.get?_eq_some.mp hi
      obtain ⟨hjl, hb⟩ := List.get?_eq_some.mp hj
      by_cases hij : i = j
      · subst hij
        have hab : a = b := by rw [← ha, ← hb]
        subst hab
        rw [List.set_set]
        have h1 : List.Perm (l.get ⟨i, hil⟩ :: l.set i a) (a :: l) := pullout l i hil a
        rw [ha] at h1
        exact (List.Perm.cons_inv h1)
      · have hjl' : j < (l.set i b).length := by simpa using hjl
        have h1 : List.Perm ((l.set i b).get ⟨j, hjl'⟩ :: (l.set i b).set j a)
            (a :: l.set i b) := pullout (l.set i b) j hjl' a
        have hgj : (l.set i b).get ⟨j, hjl'⟩ = b := by
          have := List.getElem_set_ne (l := l) (a := b) hij hjl'
          simpa [List.get_eq_getElem, hb ▸ List.get_eq_getElem (l := l) ⟨j, hjl⟩] using this
        rw [hgj] at h1
        have h2 : List.Perm (l.get ⟨i, hil⟩ :: l.set i b) (b :: l) := pullout l i hil b
        rw [ha] at h2
        exact List.Perm.cons_inv (h1.trans h2)

theorem fyGo_perm (r : Nat → Nat) : ∀ (n : Nat) (l : List α), List.Perm (fyGo r n l) l
  | 0, _ => List.Perm.refl _
  | n + 1, l =>
    (fyGo_perm r n _).trans (swapL_perm l (n + 1) (r (n + 1) % (n + 2)))

theorem shuffleArray_perm (r : Nat → Nat) (l : List α) : List.Perm (shuffleArray r l) l :=
  fyGo_perm r _ l

/-! ## Aggregation (building `allTracks`)

Recommendation results, direct searches and the artist fallback search all
insert tracks with the very same guard sequence
(`!track || !track.id` / `seenTrackIds.has` / `artistCounts[primary] >= 3`,
playlist-preview.ts lines 448-463, 499-514, 537-553): the pool any run
builds is the fold of this insertion over the stream of records the
catalog calls yielded, in processing order.  `seenTrackIds` always equals
the set of ids of `allTracks` and `artistCounts` the per-primary-artist
counts of `allTracks`, since every `add`/increment is paired with a `push`;
they are therefore modelled as derived views of the list. -/

/-- One insertion step of the aggregation phase. -/
def insertTrack (cur : List Track) (t : Track) : List Track :=
  if t.id = "" then cur
  else if cur.any (fun u => u.id = t.id) then cur
  else if rawPrimary t ≠ "" ∧ 3 ≤ countRaw cur (rawPrimary t) then cur
  else cur ++ [t]

/-- The deduplicated, per-artist-capped pool built from the stream of
catalog results. -/
def aggregateTracks (ts : List Track) : List Track := ts.foldl insertTrack []

/-! ## Scene / school detection (lines 76-157) -/

/-- The `schoolSongs` lookup table (lines 77-98), in source order. -/
def schoolSongs : List (String × List String) :=
  [("unc chapel hill", ["Carolina on my mind", "Carolina in my mind", "Carolina", "Tar Heel", "UNC", "Chapel Hill"]),
   ("unc", ["Carolina on my mind", "Carolina in my mind", "Carolina", "Tar Heel", "UNC", "Chapel Hill"]),
   ("university of north carolina", ["Carolina on my mind", "Carolina in my mind", "Carolina", "Tar Heel", "UNC", "Chapel Hill"]),
   ("duke university", ["Duke", "Blue Devil", "Duke Blue Devils"]),
   ("duke", ["Duke", "Blue Devil", "Duke Blue Devils"]),
   ("harvard university", ["Harvard", "Crimson"]),
   ("harvard", ["Harvard", "Crimson"]),
   ("yale university", ["Yale", "Bulldog"]),
   ("yale", ["Yale", "Bulldog"]),
   ("stanford university", ["Stanford", "Cardinal"]),
   ("stanford", ["Stanford", "Cardinal"]),
   ("mit", ["MIT", "Massachusetts Institute of Technology"]),
   ("massachusetts institute of technology", ["MIT", "Massachusetts Institute of Technology"]),
   ("princeton university", ["Princeton", "Tiger"]),
   ("princeton", ["Princeton", "Tiger"]),
   ("columbia university", ["Columbia", "Lion"]),
   ("columbia", ["Columbia", "Lion"]),
   ("university of pennsylvania", ["Penn", "Quaker"]),
   ("penn", ["Penn", "Quaker"]),
   ("upenn", ["Penn", "Quaker"])]

/-- School detection (lines 100-128).  The description fallback only runs
when the `school` field itself is present (truthy) but matched no table
key.  Result: `(detectedSchool, schoolSearchTerms)`. -/
def detectSchool (schoolField : Option String) (description : String) :
    Option (String × List String) :=
  match schoolField with
  | none => none
  | some s =>
    if s = "" then none
    else
      let sl := lowerStr s
      match schoolSongs.find? (fun kv => strIncludes sl kv.1 || strIncludes kv.1 sl) with
      | some kv => some kv
      | none =>
        if description = "" then none
        else schoolSongs.find? (fun kv => strIncludes (lowerStr description) kv.1)

/-- `isSchoolRelatedTrack` (lines 328-350). -/
def isSchoolTrack (detect : Option (String × List String)) (schoolField : Option String)
    (t : Track) : Bool :=
  match detect with
  | none => false
  | some (key, terms) =>
    if terms.isEmpty then false
    else
      let trackName := lowerStr t.name
      let artistName := lowerStr (rawPrimary t)
      let albumName := lowerStr t.album
      (terms.any (fun term =>
        strIncludes trackName (lowerStr term) || strIncludes artistName (lowerStr term) ||
          strIncludes albumName (lowerStr term))) ||
      (let snl := lowerStr (match schoolField with
          | some s => if s = "" then key else s
          | none => key);
        strIncludes trackName snl || strIncludes artistName snl)

/-- Classroom-scene detection (lines 139-157). -/
def classroomKeywords : List String :=
  ["classroom", "school", "study", "desk", "student", "teacher", "education",
   "learning", "academic", "lecture", "whiteboard", "blackboard", "chalkboard"]

def isClassroomScene (description : String) (genres : List String) : Bool :=
  let dl := lowerStr description
  classroomKeywords.any (fun k => strIncludes dl k) ||
    strIncludes (lowerStr (genres.headD "")) ("lofi") ||
    strIncludes (lowerStr (genres.headD "")) ("lo-fi") ||
    genres.any (fun g => strIncludes (lowerStr g) ("lofi")) ||
    genres.any (fun g => strIncludes (lowerStr g) ("lo-fi"))

/-- EDM keyword filter for classroom scenes (lines 565-587).  The
`(track as any).energy > 0.7` clause is dead at runtime: Spotify
search/recommendation track objects carry no `energy` field, so
`undefined && …` is falsy and only the keyword test filters. -/
def edmKeywords : List String :=
  ["edm", "electronic", "dance", "house", "techno", "trance", "dubstep", "rave", "festival"]

def classFilter (isClassroom : Bool) (all : List Track) : List Track :=
  if isClassroom then
    all.filter (fun t =>
      if t.name = "" then true
      else
        let nl := lowerStr t.name
        let al := lowerStr (rawPrimary t)
        let bl := lowerStr t.album
        !(edmKeywords.any (fun k => strIncludes nl k || strIncludes al k || strIncludes bl k)))
  else all

/-! ## The mood-word regex (lines 713-727)

`new RegExp(`\\b${primaryMood}\\b`, 'i').test(trackNameLower)` for a mood
word without regex metacharacters: a whole-word occurrence, where `\b`
holds between a word char (`[A-Za-z0-9_]`) and a non-word char or edge. -/

def isWordChar (c : Char) : Bool := c.isAlphanum || c = '_'

/-- `\b` between two (optional) adjacent characters. -/
def bnd (a b : Option Char) : Bool :=
  (match a with | none => false | some c => isWordChar c) !=
    (match b with | none => false | some c => isWordChar c)

/-- Search for a whole-word occurrence of `w` in the suffix `s`;
`prev` is the character just before `s` in the full string. -/
def wwGo (w : List Char) (prev : Option Char) : List Char → Bool
  | [] => w.isPrefixOf ([] : List Char) && bnd prev w.head? && bnd w.getLast? none
  | c :: rest =>
    (w.isPrefixOf (c :: rest) && bnd prev w.head? &&
      bnd w.getLast? ((c :: rest).drop w.length).head?) ||
    wwGo w (some c) rest

/-- Does `track.name` contain the mood word as a whole word
(case-insensitively)?  `primaryMood` is already lowercased. -/
def moodHit (primaryMood : String) (t : Track) : Bool :=
  primaryMood ≠ "" && t.name ≠ "" && wwGo primaryMood.data none (lowerStr t.name).data

/-! ## SelectionFilter: the popularity policy stage (lines 589-651) -/

/-- `mainstream` comparator `(a, b) => popB - popA`: `a` may precede `b`
iff `b.popularity ≤ a.popularity`. -/
def mainLe (a b : Track) : Prop := b.popularity ≤ a.popularity

/-- `indie` comparator `(a, b) => popA - popB`. -/
def indieLe (a b : Track) : Prop := a.popularity ≤ b.popularity

/-- Preview-URL priority comparator (lines 745-749): `a` may precede `b`
unless `b` has a preview and `a` has none. -/
def prevLe (a b : Track) : Prop := b.previewUrl.isSome ≤ a.previewUrl.isSome

instance : DecidableRel mainLe := fun a b =>
  inferInstanceAs (Decidable (b.popularity ≤ a.popularity))
instance : DecidableRel indieLe := fun a b =>
  inferInstanceAs (Decidable (a.popularity ≤ b.popularity))
instance : DecidableRel prevLe := fun a b =>
  inferInstanceAs (Decidable (b.previewUrl.isSome ≤ a.previewUrl.isSome))

instance : IsTotal Track mainLe := ⟨fun a b => Nat.le_total b.popularity a.popularity⟩
instance : IsTrans Track mainLe := ⟨fun _ _ _ h1 h2 => Nat.le_trans h2 h1⟩
instance : IsTotal Track indieLe := ⟨fun a b => Nat.le_total a.popularity b.popularity⟩
instance : IsTrans Track indieLe := ⟨fun _ _ _ h1 h2 => Nat.le_trans h1 h2⟩
instance : IsTotal Track prevLe := ⟨fun _ _ => Bool.le_total _ _⟩
instance : IsTrans Track prevLe := ⟨fun _ _ _ h1 h2 => Bool.le_trans h2 h1⟩

/-- The `mainstream` / `indie` / `mixed` popularity stage.
`Math.ceil(20 * 0.35) = 7` and `Math.ceil(20 * 0.30) = 6` exactly
(both IEEE products land on the integer), so the tier draws are 7/7/6. -/
def stageB (filter : String) (r1 r2 r3 r4 r5 : Nat → Nat) (all : List Track) : List Track :=
  if filter = "mainstream" then
    let ft := all.filter (fun t => 50 ≤ t.popularity)
    let ft := if ft.length < 20 then all.filter (fun t => 40 ≤ t.popularity) else ft
    List.insertionSort mainLe ft
  else if filter = "indie" then
    let ft := all.filter (fun t => t.popularity < 60)
    let ft := if ft.length < 20 then all.filter (fun t => t.popularity < 70) else ft
    List.insertionSort indieLe ft
  else
    let highPop := all.filter (fun t => 70 ≤ t.popularity)
    let medPop := all.filter (fun t => 40 ≤ t.popularity ∧ t.popularity < 70)
    let lowPop := all.filter (fun t => t.popularity < 40)
    let highCount := min 7 highPop.length
    let medCount := min 7 medPop.length
    let lowCount := min 6 lowPop.length
    let ft := (shuffleArray r1 highPop).take highCount ++
      (shuffleArray r2 medPop).take medCount ++ (shuffleArray r3 lowPop).take lowCount
    let ft :=
      if ft.length < 20 then
        let chosen := ft.map (fun t => t.id)
        let remaining := all.filter (fun t => ¬ t.id ∈ chosen)
        ft ++ (shuffleArray r4 remaining).take (20 - ft.length)
      else ft
    shuffleArray r5 ft

/-- School-track prioritization (lines 653-678). -/
def stageC (detect : Option (String × List String)) (schoolField : Option String)
    (ft : List Track) : List Track :=
  match detect with
  | none => ft
  | some (key, terms) =>
    if terms.isEmpty then ft
    else
      let isS := isSchoolTrack (some (key, terms)) schoolField
      let schoolTracks := ft.filter isS
      let nonSchoolTracks := ft.filter (fun t => !(isS t))
      let stc := min schoolTracks.length 5
      let rem := 20 - stc
      let ft2 := schoolTracks.take stc ++ nonSchoolTracks.take rem
      if ft2.length < 20 then
        let used := ft2.map (fun t => t.id)
        let remaining := (schoolTracks.drop stc ++ nonSchoolTracks.drop rem).filter
          (fun t => ¬ t.id ∈ used)
        ft2 ++ remaining.take (20 - ft2.length)
      else ft2

/-- The final shuffle (lines 680-696): keeps at most the first
`min(3, #school)` school tracks pinned and shuffles everything else. -/
def stageD (detect : Option (String × List String)) (schoolField : Option String)
    (rD : Nat → Nat) (ft : List Track) : List Track :=
  if detect.isNone || decide (5 < ft.length) then
    match detect with
    | some (key, terms) =>
      if terms.isEmpty then shuffleArray rD ft
      else
        let isS := isSchoolTrack (some (key, terms)) schoolField
        let sIn := ft.filter isS
        let nIn := ft.filter (fun t => !(isS t))
        let keep := min 3 sIn.length
        sIn.take keep ++ shuffleArray rD (sIn.drop keep ++ nIn)
    | none => shuffleArray rD ft
  else ft

/-! ## DiversityFinalizer stages (lines 700-952) -/

/-- Dedup pass of lines 700-709 (`!track || !track.id` dropped, first
occurrence of each id kept). -/
def dedupSkipGo (seen : List String) : List Track → List Track
  | [] => []
  | t :: rest =>
    if t.id = "" then dedupSkipGo seen rest
    else if t.id ∈ seen then dedupSkipGo seen rest
    else t :: dedupSkipGo (t.id :: seen) rest

def stageE (l : List Track) : List Track := dedupSkipGo [] l

/-- Lines 716-750: slice to 30, mood-word filter, slice to 40, map to the
response record (identity on the modelled fields), drop falsy ids,
stable-sort by preview-URL presence, slice to 20. -/
def stageF (primaryMood : String) (dedup : List Track) : List Track :=
  ((((dedup.take 30).filter (fun t => !moodHit primaryMood t)).take 40).filter
      (fun t => t.id ≠ "")
    |> List.insertionSort prevLe).take 20

/-- Dedup pass of lines 752-760 (no id-emptiness check). -/
def dedupGo (seen : List String) : List Track → List Track
  | [] => []
  | t :: rest =>
    if t.id ∈ seen then dedupGo seen rest
    else t :: dedupGo (t.id :: seen) rest

def stageG (l : List Track) : List Track := dedupGo [] l

/-- `currentArtistCounts` / `finalArtistCounts` built over a list of mapped
records: keyed by `artists.split(', ')[0]`, empty keys not stored. -/
def keyCounts (l : List Track) : String → Nat :=
  fun k => if k = "" then 0 else countKey l k

/-- `if (artistName && counts[artistName] >= maxTracksPerArtist)`. -/
def capBlocked (counts : String → Nat) (p : String) : Bool :=
  p ≠ "" && 3 ≤ counts p

/-- First backfill (lines 762-816): from `deduplicatedTracks`, mood filter
kept.  The artist-cap check reads the counts snapshot built before the
batch (`currentArtistCounts` is only incremented in the later `.map`,
after the `.filter` has already run). -/
def stageH (primaryMood : String) (dedup unique : List Track) : List Track :=
  if unique.length < 20 then
    let used := unique.map (fun t => t.id)
    let counts := keyCounts unique
    let remaining :=
      (((dedup.filter (fun t => t.id ≠ "" && !(t.id ∈ used))).filter
        (fun t => !moodHit primaryMood t && !capBlocked counts (rawPrimary t))).take
          (20 - unique.length)).filter (fun t => t.id ≠ "")
    unique ++ remaining
  else unique

/-- Second backfill (lines 818-862): from `allTracks`, mood filter dropped. -/
def stageI (pool : List Track) (unique : List Track) : List Track :=
  if unique.length < 20 then
    let used := unique.map (fun t => t.id)
    let counts := keyCounts unique
    let additional :=
      (((pool.filter (fun t => t.id ≠ "" && !(t.id ∈ used))).filter
        (fun t => !capBlocked counts (rawPrimary t))).take (20 - unique.length)).filter
        (fun t => t.id ≠ "")
    unique ++ additional
  else unique

/-- Final dedup + per-artist re-cap pass (lines 864-884), keyed by
`artists.split(', ')[0]` of the mapped record. -/
def stageJGo (acc : List Track) : List Track → List Track
  | [] => acc
  | t :: rest =>
    if t.id ∈ acc.map (fun u => u.id) then stageJGo acc rest
    else if capBlocked (keyCounts acc) (mappedKey t) then stageJGo acc rest
    else stageJGo (acc ++ [t]) rest

def stageJ (l : List Track) : List Track := stageJGo [] l

/-- Increment of `finalArtistCounts[artistName]` guarded by
`if (artistName)`. -/
def bump (c : String → Nat) (p : String) : String → Nat :=
  if p = "" then c else fun q => if q = p then c q + 1 else c q

def bumpAll (c : String → Nat) (ts : List Track) : String → Nat :=
  ts.foldl (fun c t => bump c (rawPrimary t)) c

/-- One batch of the fill-from-pool `while` loop (lines 892-925): unused,
non-falsy-id, cap-eligible pool tracks, at most `needed` of them.  As in
`stageH`, the cap check reads the counts as of the batch start. -/
def fillBatch (pool unique : List Track) (counts : String → Nat) : List Track :=
  ((pool.filter (fun t =>
      t.id ≠ "" && !(t.id ∈ unique.map (fun u => u.id)) &&
        !capBlocked counts (rawPrimary t))).take (20 - unique.length)).filter
    (fun t => t.id ≠ "")

/-- The `while (uniqueTracks.length < targetTrackCount && allTracks.length > 0)`
loop (lines 887-933), with explicit fuel.  Each productive iteration adds at
least one track toward the target of 20, so any fuel ≥ 21 computes the
loop's true fixed point (proved below); `runPost` runs it with fuel 21. -/
def fillLoopF (pool : List Track) : Nat → List Track × (String → Nat) → List Track
  | 0, st => st.1
  | fuel + 1, (unique, counts) =>
    if unique.length < 20 ∧ pool ≠ [] then
      let more := fillBatch pool unique counts
      if more.isEmpty then unique
      else fillLoopF pool fuel (unique ++ more, bumpAll counts more)
    else unique

/-- The `FINAL ABSOLUTE DEDUPLICATION` pass (lines 938-952). -/
def absDedup (l : List Track) : List Track := dedupSkipGo [] l

/-- The whole post-aggregation pipeline: popularity policy, school
prioritization, final shuffle, dedup, mood/preview finalize, backfills,
re-cap, fill loop, slice to 20, absolute dedup. -/
def runPost (pool : List Track) (filter primaryMood : String)
    (detect : Option (String × List String)) (schoolField : Option String)
    (r1 r2 r3 r4 r5 rD : Nat → Nat) : List Track :=
  let ft := stageB filter r1 r2 r3 r4 r5 pool
  let ft := stageC detect schoolField ft
  let sh := stageD detect schoolField rD ft
  let dedup := stageE sh
  let u1 := stageG (stageF primaryMood dedup)
  let u2 := stageH primaryMood dedup u1
  let u3 := stageI pool u2
  let u4 := stageJ u3
  let u5 := fillLoopF pool 21 (u4, keyCounts u4)
  absDedup (u5.take 20)

/-! ## The request-level wrapper -/

/-- Inputs of one run: the catalog stream and the request fields the
post-aggregation pipeline reads, plus one random source per shuffle site. -/
structure PreviewIn where
  catalog : List Track
  popularityFilter : Option String
  mood : Option String
  description : Option String
  genres : Option (List String)
  school : Option String
  rM1 : Nat → Nat
  rM2 : Nat → Nat
  rM3 : Nat → Nat
  rM4 : Nat → Nat
  rM5 : Nat → Nat
  rD : Nat → Nat

/-- `const genres = analysis.genres || ['pop']` — JS `||` substitutes the
default only for a missing/null field; a present empty array is truthy and
is kept as-is. -/
def genresOf : Option (List String) → List String
  | none => ["pop"]
  | some gs => gs

/-- `const filter = popularityFilter || 'mainstream'`. -/
def filterOf : Option String → String
  | none => "mainstream"
  | some s => if s = "" then "mainstream" else s

/-- `const mood = analysis.mood || ''` then `mood?.toLowerCase() || ''`. -/
def primaryMoodOf (mood : Option String) : String := lowerStr (mood.getD "")

def descriptionOf (d : Option String) : String := d.getD ""

/-- The pool all later stages work from: the aggregated `allTracks`, with
the classroom EDM filter applied (line 568 reassigns `allTracks`). -/
def poolOf (inp : PreviewIn) : List Track :=
  classFilter (isClassroomScene (descriptionOf inp.description) (genresOf inp.genres))
    (aggregateTracks inp.catalog)

/-- The track list a run returns (when it returns one). -/
def previewTracks (inp : PreviewIn) : List Track :=
  runPost (poolOf inp) (filterOf inp.popularityFilter) (primaryMoodOf inp.mood)
    (detectSchool inp.school (descriptionOf inp.description)) inp.school
    inp.rM1 inp.rM2 inp.rM3 inp.rM4 inp.rM5 inp.rD

/-- Outcome of a run, as far as the core pipeline is concerned: either a
distinguishable no-candidates outcome (the 404 responses of lines 561-563
and 954-956) or the final track list.  The pipeline itself is total: no
exception path exists between aggregation and the 404 checks. -/
inductive PreviewOut
  | noCandidates
  | ok (tracks : List Track)
  deriving DecidableEq

def runPreview (inp : PreviewIn) : PreviewOut :=
  if (aggregateTracks inp.catalog).isEmpty then .noCandidates
  else
    let out := previewTracks inp
    if out.isEmpty then .noCandidates else .ok out

/-! ## The fallback-search `while` loop of `src/unnamed/part_007` (lines 260-326)

State: the accumulated `allTracks` (of which `seenTrackIds` / `artistCounts`
are derived views, every `add`/increment being paired with a `push`) and a
call counter.  The catalog is a stream `resp : Nat → Option (List Track)`
indexed by the call counter; `none` models a thrown call error (the `catch`
breaks the loop).  The three fallback query strings only influence control
flow through the responses, so they are not modelled textually. -/

structure FBState where
  tracks : List Track
  calls : Nat

/-- Inner `for (const track of items)` loop with the
`if (allTracks.length >= targetTrackCount * 2) break` guard before each
insertion (lines 285-308). -/
def fbAddCapped : List Track → List Track → List Track
  | cur, [] => cur
  | cur, t :: rest =>
    if 40 ≤ cur.length then cur else fbAddCapped (insertTrack cur t) rest

/-- The `for (const query of fallbackQueries)` loop over the (up to) three
fallback queries; the returned flag signals a thrown call error. -/
def fbQueries (resp : Nat → Option (List Track)) : Nat → FBState → FBState × Bool
  | 0, st => (st, false)
  | q + 1, st =>
    if 40 ≤ st.tracks.length then (st, false)
    else
      match resp st.calls with
      | none => (⟨st.tracks, st.calls + 1⟩, true)
      | some items => fbQueries resp q ⟨fbAddCapped st.tracks items, st.calls + 1⟩

/-- One iteration of the `while` body; the flag says whether the loop
continues (no error, `foundNewTracks`, and not the
`0 < length < targetTrackCount` safety break). -/
def fbIter (resp : Nat → Option (List Track)) (st : FBState) : FBState × Bool :=
  let q := fbQueries resp 3 st
  if q.2 then (q.1, false)
  else if q.1.tracks.length = st.tracks.length then (q.1, false)
  else if q.1.tracks.length < 20 ∧ 0 < q.1.tracks.length then (q.1, false)
  else (q.1, true)

/-- `while (allTracks.length < targetTrackCount * 3) { … }`, with fuel. -/
def fbLoopF (resp : Nat → Option (List Track)) : Nat → FBState → FBState
  | 0, st => st
  | n + 1, st =>
    if st.tracks.length < 60 then
      let (st2, cont) := fbIter resp st
      if cont then fbLoopF resp n st2 else st2
    else st

/-! ## Helper lemmas: dedup passes and loop monotonicity -/

theorem dedupSkipGo_spec : ∀ (l : List Track) (seen : List String),
    ((dedupSkipGo seen l).map Track.id).Nodup ∧
      ∀ x ∈ (dedupSkipGo seen l).map Track.id, x ∉ seen ∧ x ≠ ""
  | [], _ => by simp [dedupSkipGo]
  | t :: rest, seen => by
    by_cases h0 : t.id = ""
    · simpa [dedupSkipGo, h0] using dedupSkipGo_spec rest seen
    · by_cases h1 : t.id ∈ seen
      · simpa [dedupSkipGo, h0, h1] using dedupSkipGo_spec rest seen
      · have ih := dedupSkipGo_spec rest (t.id :: seen)
        simp only [dedupSkipGo, if_neg h0, if_neg h1, List.map_cons, List.nodup_cons,
          List.mem_cons]
        refine ⟨⟨fun hmem => ?_, ih.1⟩, fun x hx => ?_⟩
        · exact ((ih.2 _ hmem).1 (List.mem_cons_self _ _))
        · rcases hx with hx | hx
          · exact hx ▸ ⟨h1, h0⟩
          · have := ih.2 x hx
            exact ⟨fun hs => this.1 (List.mem_cons_of_mem _ hs), this.2⟩

theorem insertTrack_len_le (cur : List Track) (t : Track) :
    cur.length ≤ (insertTrack cur t).length := by
  unfold insertTrack
  split_ifs <;> simp

theorem fbAddCapped_len_le : ∀ (items cur : List Track),
    cur.length ≤ (fbAddCapped cur items).length
  | [], cur => Nat.le_refl _
  | t :: rest, cur => by
    unfold fbAddCapped
    split_ifs with h
    · exact Nat.le_refl _
    · exact Nat.le_trans (insertTrack_len_le cur t) (fbAddCapped_len_le rest _)

theorem fbQueries_len_le (resp : Nat → Option (List Track)) :
    ∀ (q : Nat) (st : FBState), st.tracks.length ≤ ((fbQueries resp q st).1).tracks.length
  | 0, st => Nat.le_refl _
  | q + 1, st => by
    unfold fbQueries
    split_ifs with h
    · exact Nat.le_refl _
    · cases hr : resp st.calls with
      | none => exact Nat.le_refl _
      | some items =>
        exact Nat.le_trans (fbAddCapped_len_le items st.tracks)
          (fbQueries_len_le resp q ⟨fbAddCapped st.tracks items, st.calls + 1⟩)

theorem fbIter_cont_lt (resp : Nat → Option (List Track)) (st : FBState)
    (h : (fbIter resp st).2 = true) :
    st.tracks.length < ((fbIter resp st).1).tracks.length := by
  have hle := fbQueries_len_le resp 3 st
  simp only [fbIter] at h ⊢
  split_ifs at h ⊢ with h1 h2 h3
  all_goals simp_all
  exact Nat.lt_of_le_of_ne hle (fun e => h2 e.symm)


theorem fbLoopF_succ (resp : Nat → Option (List Track)) :
    ∀ (n : Nat) (st : FBState), 60 ≤ n + st.tracks.length →
      fbLoopF resp n st = fbLoopF resp (n + 1) st := by
  intro n
  induction n using Nat.strong_induction_on with
  | _ n IH =>
    intro st hb
    match n with
    | 0 =>
      have h60 : ¬ st.tracks.length < 60 := by omega
      simp [fbLoopF, h60]
    | k + 1 =>
      by_cases hg : st.tracks.length < 60
      · simp only [fbLoopF, if_pos hg]
        cases hc : (fbIter resp st).2 with
        | false => simp
        | true =>
          have hlt := fbIter_cont_lt resp st hc
          simp only [if_pos rfl]
          exact IH k (Nat.lt_succ_self k) _ (by omega)
      · simp [fbLoopF, hg]

theorem fbLoopF_add (resp : Nat → Option (List Track)) (st : FBState)
    (n : Nat) (hb : 60 ≤ n + st.tracks.length) :
    ∀ d, fbLoopF resp n st = fbLoopF resp (n + d) st := by
  intro d
  induction d with
  | zero => rfl
  | succ d ih =>
    rw [ih, ← Nat.add_assoc]
    exact fbLoopF_succ resp (n + d) st (by omega)

theorem fillBatch_len_pos (pool unique : List Track) (counts : String → Nat)
    (h : ¬ fillBatch pool unique counts = []) :
    1 ≤ (fillBatch pool unique counts).length :=
  Nat.succ_le_of_lt (List.length_pos.mpr h)

theorem fillLoopF_succ (pool : List Track) :
    ∀ (n : Nat) (unique : List Track) (counts : String → Nat),
      20 ≤ n + unique.length →
      fillLoopF pool n (unique, counts) = fillLoopF pool (n + 1) (unique, counts) := by
  intro n
  induction n using Nat.strong_induction_on with
  | _ n IH =>
    intro unique counts hb
    match n with
    | 0 =>
      have hg : ¬ (unique.length < 20 ∧ pool ≠ []) := by omega
      simp [fillLoopF, hg]
    | k + 1 =>
      by_cases hg : unique.length < 20 ∧ pool ≠ []
      · simp only [fillLoopF, if_pos hg]
        by_cases hm : (fillBatch pool unique counts).isEmpty
        · simp [hm]
        · simp only [hm, Bool.false_eq_true, if_neg, ite_false]
          have hlen : 1 ≤ (fillBatch pool unique counts).length :=
            fillBatch_len_pos pool unique counts (by simpa [List.isEmpty_iff] using hm)
          refine IH k (Nat.lt_succ_self k) _ _ ?_
          simp only [List.length_append]
          omega
      · simp [fillLoopF, hg]

theorem fillLoopF_add (pool : List Track) (unique : List Track) (counts : String → Nat)
    (n : Nat) (hb : 20 ≤ n + unique.length) :
    ∀ d, fillLoopF pool n (unique, counts) = fillLoopF pool (n + d) (unique, counts) := by
  intro d
  induction d with
  | zero => rfl
  | succ d ih =>
    rw [ih, ← Nat.add_assoc]
    exact fillLoopF_succ pool (n + d) unique counts (by omega)

/-! ## Sortedness of the popularity stage -/

theorem sorted_pop_desc (l : List Track) :
    List.Sorted (fun a b : Nat => b ≤ a) ((List.insertionSort mainLe l).map Track.popularity) :=
  List.pairwise_map.mpr (List.sorted_insertionSort mainLe l)

theorem sorted_pop_asc (l : List Track) :
    List.Sorted (fun a b : Nat => a ≤ b) ((List.insertionSort indieLe l).map Track.popularity) :=
  List.pairwise_map.mpr (List.sorted_insertionSort indieLe l)

theorem stageB_mainstream_eq (r1 r2 r3 r4 r5 : Nat → Nat) (all : List Track) :
    stageB "mainstream" r1 r2 r3 r4 r5 all =
      List.insertionSort mainLe
        (if (all.filter (fun t => 50 ≤ t.popularity)).length < 20 then
          all.filter (fun t => 40 ≤ t.popularity)
        else all.filter (fun t => 50 ≤ t.popularity)) := rfl

theorem stageB_indie_eq (r1 r2 r3 r4 r5 : Nat → Nat) (all : List Track) :
    stageB "indie" r1 r2 r3 r4 r5 all =
      List.insertionSort indieLe
        (if (all.filter (fun t => t.popularity < 60)).length < 20 then
          all.filter (fun t => t.popularity < 70)
        else all.filter (fun t => t.popularity < 60)) := rfl

/-! ## Concrete inputs used by counterexamples and witnesses -/

/-- A track with a single artist, no preview URL. -/
def mkT (id name artist : String) (pop : Nat) : Track := ⟨id, name, [artist], "", none, pop⟩

/-- A random source drawing `i` at step `i`: every Fisher-Yates swap is a
no-op, the shuffle is the identity. -/
def idR : Nat → Nat := fun k => k

/-- A random source always drawing 0. -/
def zR : Nat → Nat := fun _ => 0

/-! ## Claims -/

/-- C10: `shuffleArray` returns a permutation of its input: same elements
with the same multiplicities and the same length, for every sequence of
random draws.  (The source copies the input (`[...arr]`) before swapping,
so the input array is not modified; the model is a pure function.) -/
theorem claim10_shuffle_permutation (r : Nat → Nat) (l : List Track) :
    List.Perm (shuffleArray r l) l ∧ (shuffleArray r l).length = l.length ∧
      ∀ a : Track, (shuffleArray r l).count a = l.count a := by
  have h := shuffleArray_perm r l
  exact ⟨h, h.length_eq, fun a => h.count_eq a⟩

/-- C7 counterexample: the claim says the genres sequence used by the
pipeline is never empty, the default `["pop"]` being substituted when the
caller supplies no genres.  But `analysis.genres || ['pop']` only replaces
a missing/null field: a caller-supplied empty array is truthy in JS and is
kept, so the genres sequence used by the pipeline is empty. -/
theorem claim7_counterexample : genresOf (some []) = [] := rfl

/-- C7 amended: the default `["pop"]` is substituted only when the caller
omits the genres field (or sends `null`); a supplied non-empty list is used
as-is and is non-empty; a supplied empty list is kept, leaving the pipeline
with an empty genres sequence. -/
theorem claim7_amended :
    genresOf none = ["pop"] ∧ (∀ gs : List String, genresOf (some gs) = gs) ∧
      ∀ gs : List String, gs ≠ [] → genresOf (some gs) ≠ [] := by
  refine ⟨rfl, fun gs => rfl, fun gs h => ?_⟩
  simpa [genresOf] using h

theorem claim7_amended_witness :
    genresOf none = ["pop"] ∧ genresOf (some ["rock"]) ≠ [] :=
  ⟨claim7_amended.1, claim7_amended.2.2 ["rock"] (by decide)⟩

/-- C8: when the aggregated pool is empty (every catalog call contributed
zero tracks), the run returns the distinguishable `noCandidates` outcome —
the 404 response of lines 561-563 — and not an exception: the model of the
handler is a total function into `PreviewOut`, which has no error case;
the code path from aggregation to the 404 check performs no throwing
operation. -/
theorem claim8_empty_pool_is_404 (inp : PreviewIn)
    (h : aggregateTracks inp.catalog = []) :
    runPreview inp = PreviewOut.noCandidates := by
  simp [runPreview, h]

def w8In : PreviewIn :=
  { catalog := [], popularityFilter := none, mood := none, description := none
    genres := none, school := none
    rM1 := idR, rM2 := idR, rM3 := idR, rM4 := idR, rM5 := idR, rD := idR }

theorem claim8_empty_pool_is_404_witness :
    runPreview w8In = PreviewOut.noCandidates :=
  claim8_empty_pool_is_404 w8In (by decide)

/-- C1: no two entries of the returned track list share an `id`: the final
absolute dedup pass (lines 938-952) makes the id list of `absDedup l`
nodup for every input list `l` — regardless of what earlier stages
produced — and the returned list of every run is such an output. -/
theorem claim1_unique_ids :
    (∀ inp : PreviewIn, ((previewTracks inp).map Track.id).Nodup) ∧
      ∀ l : List Track, ((absDedup l).map Track.id).Nodup := by
  have habs : ∀ l : List Track, ((absDedup l).map Track.id).Nodup :=
    fun l => (dedupSkipGo_spec l []).1
  exact ⟨fun inp => habs _, habs⟩

/-- Input for the C4 counterexample: two mainstream-eligible tracks; the
single final-shuffle draw of 0 swaps them after the descending sort. -/
def ce4In : PreviewIn :=
  { catalog := [mkT "a" "Alpha" "A" 90, mkT "b" "Beta" "B" 50]
    popularityFilter := some "mainstream", mood := none, description := none
    genres := none, school := none
    rM1 := idR, rM2 := idR, rM3 := idR, rM4 := idR, rM5 := idR, rD := zR }

/-- C4 counterexample: a `mainstream` run whose returned list has
popularities `[50, 90]` — not non-increasing.  The sort of lines 600-604
is followed by the unconditional re-shuffle of lines 680-696 ("Always
shuffle the final tracks to ensure variety on refresh"), which destroys
the order. -/
theorem claim4_counterexample :
    filterOf ce4In.popularityFilter = "mainstream" ∧
      (previewTracks ce4In).map Track.popularity = [50, 90] ∧
      ¬ List.Sorted (fun a b : Nat => b ≤ a)
        ((previewTracks ce4In).map Track.popularity) := by
  refine ⟨rfl, by decide, by decide⟩

/-- C4 amended: monotonicity holds of the list the popularity-policy stage
produces (lines 589-620), before the final shuffle: for `mainstream` the
stage output is sorted by non-increasing popularity, for `indie` by
non-decreasing popularity.  The returned list of the run is a subsequent
re-shuffle of it and need not be monotone. -/
theorem claim4_amended (all : List Track) (r1 r2 r3 r4 r5 : Nat → Nat) :
    List.Sorted (fun a b : Nat => b ≤ a)
      ((stageB "mainstream" r1 r2 r3 r4 r5 all).map Track.popularity) ∧
    List.Sorted (fun a b : Nat => a ≤ b)
      ((stageB "indie" r1 r2 r3 r4 r5 all).map Track.popularity) := by
  rw [stageB_mainstream_eq, stageB_indie_eq]
  exact ⟨sorted_pop_desc _, sorted_pop_asc _⟩

/-- C9: both backfill loops terminate for every input state and every
sequence of catalog responses: any two sufficient fuels compute the same
result.  For the fallback-search `while` loop of `src/unnamed/part_007`
(bounded by the pool target of 60, each continuing round having found at
least one new track), fuel `60` past the current pool size suffices; for
the final fill-from-pool `while` loop of playlist-preview.ts lines 887-933
(each continuing round adds at least one track toward the target of 20),
fuel `20` past the current list length suffices, so the fuel-21 run in
`runPost` computes the loop's true fixed point. -/
theorem claim9_backfill_loops_terminate :
    (∀ (resp : Nat → Option (List Track)) (st : FBState) (n m : Nat),
      60 ≤ n + st.tracks.length → 60 ≤ m + st.tracks.length →
      fbLoopF resp n st = fbLoopF resp m st) ∧
    ∀ (pool unique : List Track) (counts : String → Nat) (n m : Nat),
      20 ≤ n + unique.length → 20 ≤ m + unique.length →
      fillLoopF pool n (unique, counts) = fillLoopF pool m (unique, counts) := by
  constructor
  · intro resp st n m hn hm
    rcases Nat.le_total n m with h | h
    · obtain ⟨d, rfl⟩ := Nat.le.dest h
      exact fbLoopF_add resp st n hn d
    · obtain ⟨d, rfl⟩ := Nat.le.dest h
      exact (fbLoopF_add resp st m hm d).symm
  · intro pool unique counts n m hn hm
    rcases Nat.le_total n m with h | h
    · obtain ⟨d, rfl⟩ := Nat.le.dest h
      exact fillLoopF_add pool unique counts n hn d
    · obtain ⟨d, rfl⟩ := Nat.le.dest h
      exact (fillLoopF_add pool unique counts m hm d).symm

def w9Resp : Nat → Option (List Track) := fun _ => some []

theorem claim9_backfill_loops_terminate_witness :
    fbLoopF w9Resp 60 ⟨[], 0⟩ = fbLoopF w9Resp 61 ⟨[], 0⟩ ∧
      fillLoopF [] 20 ([], fun _ => 0) = fillLoopF [] 21 ([], fun _ => 0) :=
  ⟨claim9_backfill_loops_terminate.1 w9Resp ⟨[], 0⟩ 60 61 (by decide) (by decide),
   claim9_backfill_loops_terminate.2 [] [] (fun _ => 0) 20 21 (by decide) (by decide)⟩

/-! ## Pool invariants and membership machinery -/

theorem filterSub (p : α → Bool) (l : List α) : l.filter p ⊆ l :=
  (List.filter_sublist l).subset

/-- Invariants of the aggregated pool: ids are pairwise distinct and
non-empty, and no non-empty primary artist owns more than 3 entries. -/
def PoolInv (l : List Track) : Prop :=
  ((l.map Track.id).Nodup ∧ ∀ u ∈ l, u.id ≠ "") ∧
    ∀ p : String, p ≠ "" → countRaw l p ≤ 3

theorem countRaw_append (l1 l2 : List Track) (p : String) :
    countRaw (l1 ++ l2) p = countRaw l1 p + countRaw l2 p := by
  simp [countRaw, List.filter_append]

theorem insertTrack_poolInv (cur : List Track) (t : Track) (h : PoolInv cur) :
    PoolInv (insertTrack cur t) := by
  unfold insertTrack
  split_ifs with h1 h2 h3
  · exact h
  · exact h
  · exact h
  · obtain ⟨⟨hnd, hne⟩, hcap⟩ := h
    refine ⟨⟨?_, ?_⟩, ?_⟩
    · simp only [List.map_append, List.map_cons, List.map_nil]
      rw [List.nodup_append]
      refine ⟨hnd, List.nodup_singleton _, ?_⟩
      intro x hx hx2
      simp only [List.mem_singleton] at hx2
      subst hx2
      obtain ⟨u, hu, hid⟩ := List.mem_map.mp hx
      exact h2 (List.any_eq_true.mpr ⟨u, hu, by simp [hid]⟩)
    · intro u hu
      rcases List.mem_append.mp hu with hu | hu
      · exact hne u hu
      · simp only [List.mem_singleton] at hu
        exact hu ▸ h1
    · intro p hp
      rw [countRaw_append]
      by_cases hr : rawPrimary t = p
      · have hc2 : countRaw cur p ≤ 2 := by
          by_contra hgt
          push_neg at hgt
          exact h3 ⟨by rw [hr]; exact hp, by rw [hr]; omega⟩
        have h1c : countRaw [t] p ≤ 1 :=
          Nat.le_trans (List.length_filter_le _ _) (by simp)
        omega
      · have h0 : countRaw [t] p = 0 := by
          simp [countRaw, List.filter_cons, hr]
        have hc := hcap p hp
        omega

theorem foldl_insertTrack_poolInv :
    ∀ (ts cur : List Track), PoolInv cur → PoolInv (ts.foldl insertTrack cur)
  | [], _, h => h
  | t :: rest, cur, h =>
    foldl_insertTrack_poolInv rest (insertTrack cur t) (insertTrack_poolInv cur t h)

theorem aggregate_poolInv (ts : List Track) : PoolInv (aggregateTracks ts) :=
  foldl_insertTrack_poolInv ts [] (by constructor <;> simp [countRaw])

theorem poolInv_sublist {l l2 : List Track} (hs : l.Sublist l2) (h : PoolInv l2) :
    PoolInv l := by
  obtain ⟨⟨hnd, hne⟩, hcap⟩ := h
  refine ⟨⟨hnd.sublist (hs.map Track.id), fun u hu => hne u (hs.subset hu)⟩, fun p hp => ?_⟩
  exact Nat.le_trans (List.Sublist.length_le ((hs.filter _))) (hcap p hp)

theorem classFilter_sublist (b : Bool) (l : List Track) : (classFilter b l).Sublist l := by
  unfold classFilter
  split_ifs
  · exact List.filter_sublist l
  · exact List.Sublist.refl l

theorem poolOf_poolInv (inp : PreviewIn) : PoolInv (poolOf inp) :=
  poolInv_sublist (classFilter_sublist _ _) (aggregate_poolInv inp.catalog)

/-! ### Membership: every pipeline stage draws from the pool -/

theorem dedupSkipGo_subset : ∀ (l : List Track) (seen : List String),
    dedupSkipGo seen l ⊆ l
  | [], _ => by simp [dedupSkipGo]
  | t :: rest, seen => by
    unfold dedupSkipGo
    split_ifs with h0 h1
    · exact List.Subset.trans (dedupSkipGo_subset rest seen) (List.subset_cons_self _ _)
    · exact List.Subset.trans (dedupSkipGo_subset rest seen) (List.subset_cons_self _ _)
    · exact List.cons_subset_cons t (dedupSkipGo_subset rest _)

theorem dedupGo_subset : ∀ (l : List Track) (seen : List String),
    dedupGo seen l ⊆ l
  | [], _ => by simp [dedupGo]
  | t :: rest, seen => by
    unfold dedupGo
    split_ifs with h0
    · exact List.Subset.trans (dedupGo_subset rest seen) (List.subset_cons_self _ _)
    · exact List.cons_subset_cons t (dedupGo_subset rest _)

theorem shuffleArray_subset (r : Nat → Nat) (l : List Track) : shuffleArray r l ⊆ l :=
  (shuffleArray_perm r l).subset

theorem stageB_subset (filter : String) (r1 r2 r3 r4 r5 : Nat → Nat) (all : List Track) :
    stageB filter r1 r2 r3 r4 r5 all ⊆ all := by
  unfold stageB
  split_ifs with h1 h2 <;> intro t ht
  · have hm := (List.mem_insertionSort mainLe).mp ht
    split_ifs at hm <;> exact filterSub _ _ hm
  · have hm := (List.mem_insertionSort indieLe).mp ht
    split_ifs at hm <;> exact filterSub _ _ hm
  · have ht2 := (shuffleArray_subset r5 _) ht
    split_ifs at ht2 with hlen
    · rcases List.mem_append.mp ht2 with hm | hm
      · rcases List.mem_append.mp hm with hm2 | hm2
        · rcases List.mem_append.mp hm2 with hm3 | hm3
          · exact filterSub _ _ ((shuffleArray_subset r1 _) (List.take_subset _ _ hm3))
          · exact filterSub _ _ ((shuffleArray_subset r2 _) (List.take_subset _ _ hm3))
        · exact filterSub _ _ ((shuffleArray_subset r3 _) (List.take_subset _ _ hm2))
      · exact filterSub _ _ ((shuffleArray_subset r4 _) (List.take_subset _ _ hm))
    · rcases List.mem_append.mp ht2 with hm | hm
      · rcases List.mem_append.mp hm with hm2 | hm2
        · exact filterSub _ _ ((shuffleArray_subset r1 _) (List.take_subset _ _ hm2))
        · exact filterSub _ _ ((shuffleArray_subset r2 _) (List.take_subset _ _ hm2))
      · exact filterSub _ _ ((shuffleArray_subset r3 _) (List.take_subset _ _ hm))

theorem stageC_subset (detect : Option (String × List String)) (schoolField : Option String)
    (ft : List Track) : stageC detect schoolField ft ⊆ ft := by
  cases detect with
  | none => simp [stageC]
  | some kv =>
    obtain ⟨key, terms⟩ := kv
    simp only [stageC]
    split_ifs with h1 h2 <;> intro t ht
    · exact ht
    · rcases List.mem_append.mp ht with hm | hm
      · rcases List.mem_append.mp hm with hm2 | hm2
        · exact filterSub _ _ (List.take_subset _ _ hm2)
        · exact filterSub _ _ (List.take_subset _ _ hm2)
      · have := filterSub _ _ (List.take_subset _ _ hm)
        rcases List.mem_append.mp this with hm2 | hm2
        · exact filterSub _ _ (List.drop_subset _ _ hm2)
        · exact filterSub _ _ (List.drop_subset _ _ hm2)
    · rcases List.mem_append.mp ht with hm | hm
      · exact filterSub _ _ (List.take_subset _ _ hm)
      · exact filterSub _ _ (List.take_subset _ _ hm)

theorem stageD_subset (detect : Option (String × List String)) (schoolField : Option String)
    (rD : Nat → Nat) (ft : List Track) : stageD detect schoolField rD ft ⊆ ft := by
  unfold stageD
  split_ifs with h1
  · cases detect with
    | none => exact shuffleArray_subset rD ft
    | some kv =>
      by_cases h2 : kv.2.isEmpty
      · simp only [h2, ite_true]
        exact shuffleArray_subset rD ft
      · simp only [h2, Bool.false_eq_true, ite_false]
        intro t ht
        rcases List.mem_append.mp ht with hm | hm
        · exact filterSub _ _ (List.take_subset _ _ hm)
        · have := (shuffleArray_subset rD _) hm
          rcases List.mem_append.mp this with hm2 | hm2
          · exact filterSub _ _ (List.drop_subset _ _ hm2)
          · exact filterSub _ _ hm2
  · exact List.Subset.refl ft

theorem stageF_subset (primaryMood : String) (dedup : List Track) :
    stageF primaryMood dedup ⊆ dedup := by
  intro t ht
  have h1 := List.take_subset 20 _ ht
  have h2 := (List.mem_insertionSort prevLe).mp h1
  have h3 := filterSub _ _ h2
  have h4 := List.take_subset 40 _ h3
  have h5 := filterSub _ _ h4
  exact List.take_subset 30 _ h5

theorem stageH_subset (primaryMood : String) (dedup unique : List Track) :
    stageH primaryMood dedup unique ⊆ unique ++ dedup := by
  unfold stageH
  split_ifs with h1
  · intro t ht
    rcases List.mem_append.mp ht with hm | hm
    · exact List.mem_append.mpr (Or.inl hm)
    · have := filterSub _ _ hm
      have := List.take_subset _ _ this
      have := filterSub _ _ this
      have := filterSub _ _ this
      exact List.mem_append.mpr (Or.inr this)
  · exact List.subset_append_left _ _

theorem stageI_subset (pool unique : List Track) :
    stageI pool unique ⊆ unique ++ pool := by
  unfold stageI
  split_ifs with h1
  · intro t ht
    rcases List.mem_append.mp ht with hm | hm
    · exact List.mem_append.mpr (Or.inl hm)
    · have := filterSub _ _ hm
      have := List.take_subset _ _ this
      have := filterSub _ _ this
      have := filterSub _ _ this
      exact List.mem_append.mpr (Or.inr this)
  · exact List.subset_append_left _ _

theorem stageJGo_subset : ∀ (l acc : List Track), stageJGo acc l ⊆ acc ++ l
  | [], acc => by simp [stageJGo]
  | t :: rest, acc => by
    unfold stageJGo
    split_ifs with h1 h2
    · intro x hx
      have := stageJGo_subset rest acc hx
      rcases List.mem_append.mp this with hm | hm
      · exact List.mem_append.mpr (Or.inl hm)
      · exact List.mem_append.mpr (Or.inr (List.mem_cons_of_mem t hm))
    · intro x hx
      have := stageJGo_subset rest acc hx
      rcases List.mem_append.mp this with hm | hm
      · exact List.mem_append.mpr (Or.inl hm)
      · exact List.mem_append.mpr (Or.inr (List.mem_cons_of_mem t hm))
    · intro x hx
      have := stageJGo_subset rest (acc ++ [t]) hx
      rcases List.mem_append.mp this with hm | hm
      · rcases List.mem_append.mp hm with hm2 | hm2
        · exact List.mem_append.mpr (Or.inl hm2)
        · simp only [List.mem_singleton] at hm2
          exact List.mem_append.mpr (Or.inr (hm2 ▸ List.mem_cons_self t rest))
      · exact List.mem_append.mpr (Or.inr (List.mem_cons_of_mem t hm))

theorem stageJ_subset (l : List Track) : stageJ l ⊆ l := by
  intro x hx
  have := stageJGo_subset l [] hx
  simpa using this

theorem fillBatch_subset (pool unique : List Track) (counts : String → Nat) :
    fillBatch pool unique counts ⊆ pool := by
  intro t ht
  have := filterSub _ _ ht
  have := List.take_subset _ _ this
  exact filterSub _ _ this

theorem fillLoopF_subset (pool : List Track) :
    ∀ (fuel : Nat) (unique : List Track) (counts : String → Nat),
      fillLoopF pool fuel (unique, counts) ⊆ unique ++ pool
  | 0, unique, counts => List.subset_append_left _ _
  | fuel + 1, unique, counts => by
    simp only [fillLoopF]
    split_ifs with h1 h2
    · exact List.subset_append_left _ _
    · intro x hx
      have := fillLoopF_subset pool fuel (unique ++ fillBatch pool unique counts)
        (bumpAll counts (fillBatch pool unique counts)) hx
      rcases List.mem_append.mp this with hm | hm
      · rcases List.mem_append.mp hm with hm2 | hm2
        · exact List.mem_append.mpr (Or.inl hm2)
        · exact List.mem_append.mpr (Or.inr (fillBatch_subset pool unique counts hm2))
      · exact List.mem_append.mpr (Or.inr hm)
    · exact List.subset_append_left _ _

/-- Every track `runPost` returns is a member of the pool it drew from. -/
theorem runPost_subset (pool : List Track) (filter primaryMood : String)
    (detect : Option (String × List String)) (schoolField : Option String)
    (r1 r2 r3 r4 r5 rD : Nat → Nat) :
    runPost pool filter primaryMood detect schoolField r1 r2 r3 r4 r5 rD ⊆ pool := by
  intro t ht
  simp only [runPost, absDedup] at ht
  have h1 := dedupSkipGo_subset _ _ ht
  have h2 := List.take_subset _ _ h1
  have h3 := fillLoopF_subset _ _ _ _ h2
  rcases List.mem_append.mp h3 with hm | hm
  · have h4 := stageJ_subset _ hm
    have h5 := stageI_subset _ _ h4
    rcases List.mem_append.mp h5 with hm2 | hm2
    · have h6 := stageH_subset _ _ _ hm2
      rcases List.mem_append.mp h6 with hm3 | hm3
      · have h7 := stageF_subset _ _ (dedupGo_subset _ _ hm3)
        have h8 := dedupSkipGo_subset _ _ h7
        have h9 := stageD_subset _ _ _ _ h8
        have h10 := stageC_subset _ _ _ h9
        exact stageB_subset _ _ _ _ _ _ _ h10
      · have h8 := dedupSkipGo_subset _ _ hm3
        have h9 := stageD_subset _ _ _ _ h8
        have h10 := stageC_subset _ _ _ h9
        exact stageB_subset _ _ _ _ _ _ _ h10
    · exact hm2
  · exact hm

/-- Every returned track is a member of the pool the run drew from. -/
theorem previewTracks_subset_pool (inp : PreviewIn) :
    previewTracks inp ⊆ poolOf inp := by
  intro t ht
  simp only [previewTracks] at ht
  exact runPost_subset _ _ _ _ _ _ _ _ _ _ _ ht

/-! ## Counting lemmas -/

theorem countRaw_le_of_subset (out pool : List Track) (hsub : out ⊆ pool)
    (hnd : (out.map Track.id).Nodup) (p : String) :
    countRaw out p ≤ countRaw pool p := by
  have hndA : ((out.filter (fun t => rawPrimary t = p)).map Track.id).Nodup :=
    hnd.sublist ((List.filter_sublist out).map Track.id)
  have hsubA : (out.filter (fun t => rawPrimary t = p)).map Track.id ⊆
      (pool.filter (fun t => rawPrimary t = p)).map Track.id := by
    intro x hx
    obtain ⟨u, hu, hid⟩ := List.mem_map.mp hx
    rw [List.mem_filter] at hu
    exact List.mem_map.mpr ⟨u, List.mem_filter.mpr ⟨hsub hu.1, hu.2⟩, hid⟩
  have := (List.subperm_of_subset hndA hsubA).length_le
  simpa [countRaw] using this

theorem countRaw_succ_le (pool unique : List Track) (t : Track)
    (hpsub : unique ⊆ pool) (hnd : (unique.map Track.id).Nodup)
    (ht : t ∈ pool) (hun : t.id ∉ unique.map Track.id) :
    countRaw unique (rawPrimary t) + 1 ≤ countRaw pool (rawPrimary t) := by
  have hndS : (t.id ::
      (unique.filter (fun u => rawPrimary u = rawPrimary t)).map Track.id).Nodup := by
    rw [List.nodup_cons]
    refine ⟨fun hmem => hun ?_, hnd.sublist ((List.filter_sublist unique).map Track.id)⟩
    obtain ⟨u, hu, hid⟩ := List.mem_map.mp hmem
    exact List.mem_map.mpr ⟨u, (List.filter_sublist unique).subset hu, hid⟩
  have hsubS : (t.id ::
      (unique.filter (fun u => rawPrimary u = rawPrimary t)).map Track.id) ⊆
      (pool.filter (fun u => rawPrimary u = rawPrimary t)).map Track.id := by
    intro x hx
    rcases List.mem_cons.mp hx with hx | hx
    · exact hx ▸ List.mem_map.mpr ⟨t, List.mem_filter.mpr ⟨ht, by simp⟩, rfl⟩
    · obtain ⟨u, hu, hid⟩ := List.mem_map.mp hx
      rw [List.mem_filter] at hu
      exact List.mem_map.mpr ⟨u, List.mem_filter.mpr ⟨hpsub hu.1, hu.2⟩, hid⟩
  have := (List.subperm_of_subset hndS hsubS).length_le
  simpa [countRaw, Nat.add_comm] using this

/-- When the mapped artist key of every member agrees with its raw primary
artist (no artist name contains the join separator `", "`), key counts and
raw counts coincide. -/
theorem countKey_eq_countRaw (l : List Track)
    (h : ∀ t ∈ l, mappedKey t = rawPrimary t) (p : String) :
    countKey l p = countRaw l p := by
  unfold countKey countRaw
  congr 1
  apply List.filter_congr
  intro t ht
  simp [h t ht]

/-! ## C3: the per-artist cap on the returned list -/

/-- C3: no (named) primary artist owns more than `maxPerArtist = 3` entries
of the returned track list.  `p = ""` encodes a track without artists (or
an empty artist name), which every cap check in the source deliberately
exempts (`if (primaryArtist && …)`), so the cap is about non-empty names.
Proof: every returned track is a pool member, returned ids are nodup, and
the aggregation phase capped the pool itself at 3 per named artist. -/
theorem claim3_artist_cap (inp : PreviewIn) (p : String) (hp : p ≠ "") :
    countRaw (previewTracks inp) p ≤ 3 := by
  have hnd : ((previewTracks inp).map Track.id).Nodup := (dedupSkipGo_spec _ []).1
  have hsub := previewTracks_subset_pool inp
  have hpool := (poolOf_poolInv inp).2 p hp
  exact Nat.le_trans (countRaw_le_of_subset _ _ hsub hnd p) hpool

def w3In : PreviewIn :=
  { catalog := [mkT "a" "Alpha" "A" 50], popularityFilter := none, mood := none
    description := none, genres := none, school := none
    rM1 := idR, rM2 := idR, rM3 := idR, rM4 := idR, rM5 := idR, rD := idR }

theorem claim3_artist_cap_witness :
    ("A" : String) ≠ "" ∧ countRaw (previewTracks w3In) "A" ≤ 3 :=
  ⟨by decide, claim3_artist_cap w3In "A" (by decide)⟩

/-! ## C2 machinery: the fill loop fills to 20 unless the pool runs out -/

theorem dedupSkipGo_len_le : ∀ (l : List Track) (seen : List String),
    (dedupSkipGo seen l).length ≤ l.length
  | [], _ => Nat.le_refl _
  | t :: rest, seen => by
    unfold dedupSkipGo
    split_ifs with h0 h1
    · exact Nat.le_trans (dedupSkipGo_len_le rest seen) (Nat.le_succ _)
    · exact Nat.le_trans (dedupSkipGo_len_le rest seen) (Nat.le_succ _)
    · simpa using Nat.succ_le_succ (dedupSkipGo_len_le rest (t.id :: seen))

theorem dedupSkipGo_eq_self : ∀ (l : List Track) (seen : List String),
    ((l.map Track.id).Nodup) → (∀ t ∈ l, t.id ≠ "") → (∀ t ∈ l, t.id ∉ seen) →
    dedupSkipGo seen l = l
  | [], _, _, _, _ => rfl
  | t :: rest, seen, hnd, hne, hns => by
    have h0 : ¬ t.id = "" := hne t (List.mem_cons_self t rest)
    have h1 : ¬ t.id ∈ seen := hns t (List.mem_cons_self t rest)
    rw [List.map_cons, List.nodup_cons] at hnd
    unfold dedupSkipGo
    rw [if_neg h0, if_neg h1, dedupSkipGo_eq_self rest (t.id :: seen) hnd.2
      (fun u hu => hne u (List.mem_cons_of_mem t hu))
      (fun u hu => by
        intro hmem
        rcases List.mem_cons.mp hmem with he | he
        · exact hnd.1 (he ▸ List.mem_map.mpr ⟨u, hu, rfl⟩)
        · exact hns u (List.mem_cons_of_mem t hu) he)]

theorem stageJGo_nodupIds : ∀ (l acc : List Track),
    ((acc.map Track.id).Nodup) → (((stageJGo acc l).map Track.id).Nodup)
  | [], acc, h => h
  | t :: rest, acc, h => by
    unfold stageJGo
    split_ifs with h1 h2
    · exact stageJGo_nodupIds rest acc h
    · exact stageJGo_nodupIds rest acc h
    · refine stageJGo_nodupIds rest (acc ++ [t]) ?_
      simp only [List.map_append, List.map_cons, List.map_nil]
      rw [List.nodup_append]
      exact ⟨h, List.nodup_singleton _, by
        intro x hx hx2
        simp only [List.mem_singleton] at hx2
        exact h1 (hx2 ▸ hx)⟩

theorem stageJ_nodupIds (l : List Track) : ((stageJ l).map Track.id).Nodup :=
  stageJGo_nodupIds l [] (by simp)

theorem bump_eq (c : String → Nat) (q p : String) (hp : p ≠ "") :
    bump c q p = c p + (if q = p then 1 else 0) := by
  unfold bump
  by_cases hq : q = ""
  · have h2 : ¬("" : String) = p := fun e => hp e.symm
    simp [hq, h2]
  · simp only [hq, ite_false]
    by_cases hqp : p = q
    · simp [hqp]
    · have hqp2 : ¬ q = p := fun e => hqp e.symm
      simp [hqp, hqp2]

theorem countRaw_cons (t : Track) (l : List Track) (p : String) :
    countRaw (t :: l) p = (if rawPrimary t = p then 1 else 0) + countRaw l p := by
  simp only [countRaw, List.filter_cons]
  split_ifs with h <;> simp_all [Nat.add_comm]

theorem bumpAll_eq : ∀ (ts : List Track) (c : String → Nat) (p : String), p ≠ "" →
    bumpAll c ts p = c p + countRaw ts p
  | [], c, p, hp => by simp [bumpAll, countRaw]
  | t :: ts, c, p, hp => by
    have hrec : bumpAll c (t :: ts) = bumpAll (bump c (rawPrimary t)) ts := rfl
    rw [hrec, bumpAll_eq ts (bump c (rawPrimary t)) p hp, bump_eq c (rawPrimary t) p hp,
      countRaw_cons]
    split_ifs <;> omega

/-- The trailing `.filter(track => track.id)` of the fill batch is a no-op:
every element selected by the main filter already has a non-empty id. -/
theorem fillBatch_eq (pool unique : List Track) (counts : String → Nat) :
    fillBatch pool unique counts =
      (pool.filter (fun t =>
        t.id ≠ "" && !(t.id ∈ unique.map (fun u => u.id)) &&
          !capBlocked counts (rawPrimary t))).take (20 - unique.length) := by
  unfold fillBatch
  rw [List.filter_eq_self]
  intro t ht
  have h2 := List.take_subset _ _ ht
  rw [List.mem_filter] at h2
  have := h2.2
  simp only [Bool.and_eq_true, decide_eq_true_eq] at this
  simpa using this.1.1

theorem fillBatch_sublist (pool unique : List Track) (counts : String → Nat) :
    (fillBatch pool unique counts).Sublist pool := by
  rw [fillBatch_eq]
  exact (List.take_sublist _ _).trans (List.filter_sublist pool)

theorem mem_fillBatch (pool unique : List Track) (counts : String → Nat) (t : Track)
    (ht : t ∈ fillBatch pool unique counts) :
    t ∈ pool ∧ t.id ∉ unique.map Track.id := by
  rw [fillBatch_eq] at ht
  have h2 := List.take_subset _ _ ht
  rw [List.mem_filter] at h2
  have := h2.2
  simp only [Bool.and_eq_true, decide_eq_true_eq, Bool.not_eq_true'] at this
  refine ⟨h2.1, fun hmem => ?_⟩
  have hm2 : t.id ∈ unique.map (fun u => u.id) := hmem
  have := this.1.2
  rw [decide_eq_false_iff_not] at this
  exact this hm2

theorem fillBatch_empty_analysis (pool unique : List Track) (counts : String → Nat)
    (hlen : unique.length < 20) (hne : ∀ t ∈ pool, t.id ≠ "")
    (h : fillBatch pool unique counts = []) :
    ∀ t ∈ pool, t.id ∈ unique.map Track.id ∨ capBlocked counts (rawPrimary t) = true := by
  rw [fillBatch_eq] at h
  rcases List.take_eq_nil_iff.mp h with h0 | h0
  · omega
  · intro t ht
    by_cases hmem : t.id ∈ unique.map Track.id
    · exact Or.inl hmem
    · by_cases hblk : capBlocked counts (rawPrimary t) = true
      · exact Or.inr hblk
      · exfalso
        have hq := (List.filter_eq_nil_iff.mp h0) t ht
        apply hq
        have e1 : decide (t.id ≠ "") = true := decide_eq_true (hne t ht)
        have e2 : decide (t.id ∈ unique.map (fun u => u.id)) = false :=
          decide_eq_false (fun hmm => hmem hmm)
        have e3 : capBlocked counts (rawPrimary t) = false := by
          cases hcb : capBlocked counts (rawPrimary t)
          · rfl
          · exact absurd hcb hblk
        rw [e1, e2, e3]
        rfl

theorem fillLoopF_main (pool : List Track) (hinv : PoolInv pool) :
    ∀ (fuel : Nat) (unique : List Track) (counts : String → Nat),
      unique ⊆ pool → ((unique.map Track.id).Nodup) →
      (∀ p, p ≠ "" → counts p = countRaw unique p) →
      20 ≤ fuel + unique.length →
      (fillLoopF pool fuel (unique, counts)) ⊆ pool ∧
        (((fillLoopF pool fuel (unique, counts)).map Track.id).Nodup) ∧
        (20 ≤ (fillLoopF pool fuel (unique, counts)).length ∨
          pool.length ≤ (fillLoopF pool fuel (unique, counts)).length) := by
  intro fuel
  induction fuel with
  | zero =>
    intro unique counts h1 h2 h3 hb
    simp only [fillLoopF]
    exact ⟨h1, h2, Or.inl (by omega)⟩
  | succ fuel IH =>
    intro unique counts h1 h2 h3 hb
    simp only [fillLoopF]
    by_cases hg : unique.length < 20 ∧ pool ≠ []
    · rw [if_pos hg]
      by_cases hm : (fillBatch pool unique counts).isEmpty = true
      · rw [if_pos hm]
        have hempty : fillBatch pool unique counts = [] := List.isEmpty_iff.mp hm
        have hall : ∀ t ∈ pool, t.id ∈ unique.map Track.id := by
          intro t ht
          rcases fillBatch_empty_analysis pool unique counts hg.1
            (hinv.1.2) hempty t ht with hmem | hblk
          · exact hmem
          · by_cases hmem2 : t.id ∈ unique.map Track.id
            · exact hmem2
            · exfalso
              simp only [capBlocked, Bool.and_eq_true, decide_eq_true_eq,
                bne_iff_ne, ne_eq] at hblk
              have hpne : rawPrimary t ≠ "" := by
                rcases hblk with ⟨hb1, _⟩
                simpa using hb1
              have hcnt : 3 ≤ counts (rawPrimary t) := hblk.2
              rw [h3 _ hpne] at hcnt
              have hsucc := countRaw_succ_le pool unique t h1 h2 ht hmem2
              have hcap := hinv.2 (rawPrimary t) hpne
              omega
        have hsubids : pool.map Track.id ⊆ unique.map Track.id := by
          intro x hx
          obtain ⟨t, ht, rfl⟩ := List.mem_map.mp hx
          exact hall t ht
        have hlen := (List.subperm_of_subset hinv.1.1 hsubids).length_le
        simp only [List.length_map] at hlen
        exact ⟨h1, h2, Or.inr hlen⟩
      · rw [if_neg hm]
        have hmore : fillBatch pool unique counts ≠ [] := by
          intro he
          exact hm (List.isEmpty_iff.mpr he)
        have hmlen : 1 ≤ (fillBatch pool unique counts).length :=
          Nat.succ_le_of_lt (List.length_pos.mpr hmore)
        refine IH (unique ++ fillBatch pool unique counts)
          (bumpAll counts (fillBatch pool unique counts)) ?_ ?_ ?_ ?_
        · rw [List.append_subset]
          exact ⟨h1, (fillBatch_sublist pool unique counts).subset⟩
        · simp only [List.map_append]
          rw [List.nodup_append]
          refine ⟨h2, hinv.1.1.sublist ((fillBatch_sublist pool unique counts).map _), ?_⟩
          intro x hx hx2
          obtain ⟨t, ht, rfl⟩ := List.mem_map.mp hx2
          exact (mem_fillBatch pool unique counts t ht).2 hx
        · intro p hp
          rw [bumpAll_eq _ _ _ hp, countRaw_append, h3 p hp]
        · simp only [List.length_append]
          omega
    · rw [if_neg hg]
      rcases Decidable.not_and_iff_or_not.mp hg with hc | hc
      · exact ⟨h1, h2, Or.inl (by omega)⟩
      · have : pool = [] := by
          by_contra hne
          exact hc hne
        exact ⟨h1, h2, Or.inr (by simp [this])⟩

/-- If the finished pipeline returned fewer than 20 tracks, and no pool
track's artist join/split key disagrees with its raw primary artist, then
the pool itself had fewer than 20 tracks. -/
theorem tail_small (pool u3 : List Track) (hinv : PoolInv pool)
    (hKey : ∀ t ∈ pool, mappedKey t = rawPrimary t) (hsub3 : u3 ⊆ pool)
    (hlt : (absDedup ((fillLoopF pool 21
      (stageJ u3, keyCounts (stageJ u3))).take 20)).length < 20) :
    pool.length < 20 := by
  have hsub4 : stageJ u3 ⊆ pool := fun t ht => hsub3 (stageJ_subset u3 ht)
  have hnd4 : ((stageJ u3).map Track.id).Nodup := stageJ_nodupIds u3
  have hcnt4 : ∀ p, p ≠ "" → keyCounts (stageJ u3) p = countRaw (stageJ u3) p := by
    intro p hp
    unfold keyCounts
    rw [if_neg hp]
    exact countKey_eq_countRaw _ (fun t ht => hKey t (hsub4 ht)) p
  obtain ⟨hRsub, hRnd, hRlen⟩ := fillLoopF_main pool hinv 21 (stageJ u3)
    (keyCounts (stageJ u3)) hsub4 hnd4 hcnt4 (by omega)
  set R := fillLoopF pool 21 (stageJ u3, keyCounts (stageJ u3)) with hR
  have hclean : absDedup (R.take 20) = R.take 20 := by
    apply dedupSkipGo_eq_self
    · exact hRnd.sublist ((List.take_sublist 20 R).map Track.id)
    · exact fun t ht => hinv.1.2 t (hRsub (List.take_subset _ _ ht))
    · simp
  rw [hclean] at hlt
  rcases hRlen with h20 | hpl
  · rw [List.length_take] at hlt
    omega
  · have hRlt : R.length < 20 := by
      by_contra hge
      rw [List.length_take] at hlt
      omega
    rw [List.length_take] at hlt
    omega

/-- `∃`-packaged view of `runPost` as the fill-loop tail applied after the
re-cap pass, abstracting the (large) intermediate list. -/
theorem runPost_decomp (pool : List Track) (filter primaryMood : String)
    (detect : Option (String × List String)) (schoolField : Option String)
    (r1 r2 r3 r4 r5 rD : Nat → Nat) :
    ∃ u3, u3 ⊆ pool ∧ runPost pool filter primaryMood detect schoolField r1 r2 r3 r4 r5 rD =
      absDedup ((fillLoopF pool 21 (stageJ u3, keyCounts (stageJ u3))).take 20) := by
  refine ⟨_, ?_, rfl⟩
  intro t ht
  have h5 := stageI_subset _ _ ht
  rcases List.mem_append.mp h5 with hm2 | hm2
  · have h6 := stageH_subset _ _ _ hm2
    rcases List.mem_append.mp h6 with hm3 | hm3
    · have h7 := stageF_subset _ _ (dedupGo_subset _ _ hm3)
      have h8 := dedupSkipGo_subset _ _ h7
      have h9 := stageD_subset _ _ _ _ h8
      have h10 := stageC_subset _ _ _ h9
      exact stageB_subset _ _ _ _ _ _ _ h10
    · have h8 := dedupSkipGo_subset _ _ hm3
      have h9 := stageD_subset _ _ _ _ h8
      have h10 := stageC_subset _ _ _ h9
      exact stageB_subset _ _ _ _ _ _ _ h10
  · exact hm2

theorem runPost_len_le (pool : List Track) (filter primaryMood : String)
    (detect : Option (String × List String)) (schoolField : Option String)
    (r1 r2 r3 r4 r5 rD : Nat → Nat) :
    (runPost pool filter primaryMood detect schoolField r1 r2 r3 r4 r5 rD).length ≤ 20 := by
  simp only [runPost, absDedup]
  exact Nat.le_trans (dedupSkipGo_len_le _ _) (List.length_take_le _ _)

/-! ## C2: eligibility count of a pool -/

/-- Greedy cap-respecting selection: the tracks of `l` that a selection
respecting the per-artist cap of 3 can include, scanning left to right
(unnamed-artist tracks are never blocked, as in every cap check of the
source). -/
def capSelect (counts : String → Nat) : List Track → List Track
  | [] => []
  | t :: rest =>
    if rawPrimary t ≠ "" ∧ 3 ≤ counts (rawPrimary t) then capSelect counts rest
    else t :: capSelect (bump counts (rawPrimary t)) rest

/-- "Tracks eligible under the per-artist cap" in the pool:
`Σ_p min(count_p, 3)` over named artists plus all unnamed-artist tracks. -/
def capEligibleCount (l : List Track) : Nat := (capSelect (fun _ => 0) l).length

theorem capSelect_all : ∀ (l : List Track) (counts : String → Nat),
    (∀ p, p ≠ "" → counts p + countRaw l p ≤ 3) → capSelect counts l = l
  | [], _, _ => rfl
  | t :: rest, counts, h => by
    unfold capSelect
    by_cases hr : rawPrimary t = ""
    · rw [if_neg (by simp [hr])]
      congr 1
      apply capSelect_all
      intro p hp
      have := h p hp
      rw [countRaw_cons] at this
      have hbe : bump counts (rawPrimary t) = counts := by simp [bump, hr]
      rw [hbe]
      split_ifs at this <;> omega
    · have hc := h (rawPrimary t) hr
      rw [countRaw_cons, if_pos rfl] at hc
      rw [if_neg (by omega)]
      congr 1
      apply capSelect_all
      intro p hp
      have := h p hp
      rw [countRaw_cons] at this
      rw [bump_eq _ _ _ hp]
      split_ifs at this ⊢ <;> omega

theorem capEligibleCount_of_inv (l : List Track)
    (h : ∀ p, p ≠ "" → countRaw l p ≤ 3) : capEligibleCount l = l.length := by
  unfold capEligibleCount
  rw [capSelect_all l (fun _ => 0) (fun p hp => by simpa using h p hp)]

/-! ## C2 claim -/

/-- Input for the C2 counterexample.  "Tyler, The Creator" is a real
primary-artist name containing the join separator `", "` (it appears in
the source's own `genreToArtists` table), so the mapped record's
`artists.split(', ')[0]` key is `"Tyler"`.  After the re-cap pass counts
three such tracks under `"Tyler"`, the pool's tracks whose primary artist
really is `"Tyler"` are cap-blocked in both backfills and in the fill
loop, and the run returns 17 < 20 tracks although the pool holds 20
cap-eligible tracks. -/
def ce2In : PreviewIn :=
  { catalog :=
      [mkT "t1" "T one" "Tyler, The Creator" 50, mkT "t2" "T two" "Tyler, The Creator" 50,
       mkT "t3" "T three" "Tyler, The Creator" 50,
       mkT "m01" "M one" "A1" 50, mkT "m02" "M two" "A2" 50, mkT "m03" "M three" "A3" 50,
       mkT "m04" "M four" "A4" 50, mkT "m05" "M five" "A5" 50, mkT "m06" "M six" "A6" 50,
       mkT "m07" "M seven" "A7" 50, mkT "m08" "M eight" "A8" 50, mkT "m09" "M nine" "A9" 50,
       mkT "m10" "M ten" "B1" 50, mkT "m11" "M eleven" "B2" 50, mkT "m12" "M twelve" "B3" 50,
       mkT "m13" "M thirteen" "B4" 50, mkT "m14" "M fourteen" "B5" 50,
       mkT "u1" "U one" "Tyler" 30, mkT "u2" "U two" "Tyler" 30, mkT "u3" "U three" "Tyler" 30]
    popularityFilter := some "mainstream", mood := none, description := none
    genres := none, school := none
    rM1 := idR, rM2 := idR, rM3 := idR, rM4 := idR, rM5 := idR, rD := idR }

/-- C2 counterexample: a run returning 17 < 20 tracks although its
deduplicated pool holds 20 cap-eligible tracks. -/
theorem claim2_counterexample :
    (previewTracks ce2In).length < 20 ∧
      ¬ (capEligibleCount (poolOf ce2In) < 20) := by
  constructor
  · decide
  · decide

/-- C2 amended: the returned list never exceeds `targetCount = 20`; and
*provided no pool track's artist names contain the join separator `", "`*
(formally: each pool member's mapped `artists.split(', ')[0]` key equals
its raw primary artist name), a run returns fewer than 20 tracks only when
the pool holds fewer than 20 cap-eligible tracks.  With a separator-bearing
name such as "Tyler, The Creator" the re-cap pass and the backfills count
under different keys and the bound can fail (see the counterexample). -/
theorem claim2_size_bound (inp : PreviewIn) :
    (previewTracks inp).length ≤ 20 ∧
      ((∀ t ∈ poolOf inp, mappedKey t = rawPrimary t) →
        (previewTracks inp).length < 20 → capEligibleCount (poolOf inp) < 20) := by
  constructor
  · exact runPost_len_le _ _ _ _ _ _ _ _ _ _ _
  · intro hKey hlt
    obtain ⟨u3, hsub3, heq⟩ := runPost_decomp (poolOf inp) (filterOf inp.popularityFilter)
      (primaryMoodOf inp.mood) (detectSchool inp.school (descriptionOf inp.description))
      inp.school inp.rM1 inp.rM2 inp.rM3 inp.rM4 inp.rM5 inp.rD
    have hpt : previewTracks inp = runPost (poolOf inp) (filterOf inp.popularityFilter)
        (primaryMoodOf inp.mood) (detectSchool inp.school (descriptionOf inp.description))
        inp.school inp.rM1 inp.rM2 inp.rM3 inp.rM4 inp.rM5 inp.rD := rfl
    rw [hpt, heq] at hlt
    have hsmall := tail_small (poolOf inp) u3 (poolOf_poolInv inp) hKey hsub3 hlt
    rw [capEligibleCount_of_inv _ ((poolOf_poolInv inp).2)]
    exact hsmall

def w2In : PreviewIn :=
  { catalog := [mkT "a" "Alpha" "A" 50], popularityFilter := none, mood := none
    description := none, genres := none, school := none
    rM1 := idR, rM2 := idR, rM3 := idR, rM4 := idR, rM5 := idR, rD := idR }

theorem claim2_size_bound_witness :
    (previewTracks w2In).length ≤ 20 ∧ capEligibleCount (poolOf w2In) < 20 :=
  ⟨(claim2_size_bound w2In).1, (claim2_size_bound w2In).2 (by decide) (by decide)⟩

/-! ## C6: the mood-word exclusion and its backfill relaxation -/

/-- The list entering the finalize stage (`deduplicatedTracks`, line 702). -/
def dedupOf (inp : PreviewIn) : List Track :=
  stageE (stageD (detectSchool inp.school (descriptionOf inp.description)) inp.school inp.rD
    (stageC (detectSchool inp.school (descriptionOf inp.description)) inp.school
      (stageB (filterOf inp.popularityFilter) inp.rM1 inp.rM2 inp.rM3 inp.rM4 inp.rM5
        (poolOf inp))))

/-- `uniqueTracks` after the first (mood-filtered) backfill, line 815. -/
def afterH (inp : PreviewIn) : List Track :=
  stageH (primaryMoodOf inp.mood) (dedupOf inp)
    (stageG (stageF (primaryMoodOf inp.mood) (dedupOf inp)))

/-- `uniqueTracks` after the final dedup/re-cap pass, line 884. -/
def afterJ (inp : PreviewIn) : List Track :=
  stageJ (stageI (poolOf inp) (afterH inp))

theorem previewTracks_eq_tail (inp : PreviewIn) :
    previewTracks inp =
      absDedup ((fillLoopF (poolOf inp) 21
        (afterJ inp, keyCounts (afterJ inp))).take 20) := rfl

theorem mem_stageF_not_mood (primaryMood : String) (dedup : List Track) (t : Track)
    (ht : t ∈ stageF primaryMood dedup) : moodHit primaryMood t = false := by
  simp only [stageF] at ht
  have h1 := List.take_subset _ _ ht
  have h2 := (List.mem_insertionSort prevLe).mp h1
  have h3 := filterSub _ _ h2
  have h4 := List.take_subset _ _ h3
  rw [List.mem_filter] at h4
  have := h4.2
  rwa [Bool.not_eq_true'] at this

theorem mem_stageH_not_mood (primaryMood : String) (dedup unique : List Track)
    (hu : ∀ t ∈ unique, moodHit primaryMood t = false) (t : Track)
    (ht : t ∈ stageH primaryMood dedup unique) : moodHit primaryMood t = false := by
  unfold stageH at ht
  split_ifs at ht with h1
  · rcases List.mem_append.mp ht with hm | hm
    · exact hu t hm
    · have h2 := filterSub _ _ hm
      have h3 := List.take_subset _ _ h2
      rw [List.mem_filter] at h3
      have := h3.2
      simp only [Bool.and_eq_true, Bool.not_eq_true'] at this
      exact this.1
  · exact hu t ht

theorem stageI_of_ge (pool unique : List Track) (h : ¬ unique.length < 20) :
    stageI pool unique = unique := by
  unfold stageI
  rw [if_neg h]

theorem fillLoopF_of_ge (pool : List Track) (fuel : Nat) (unique : List Track)
    (counts : String → Nat) (h : ¬ unique.length < 20) :
    fillLoopF pool (fuel + 1) (unique, counts) = unique := by
  simp only [fillLoopF]
  rw [if_neg (fun hc => h hc.1)]

/-- Input for C6: 19 mood-free mainstream tracks plus, below the
popularity threshold, a mood-titled track `x` ("happy day") ahead of a
mood-free substitute `y` ("clear sky") in pool order. -/
def a19 : List Track :=
  (List.range 19).map (fun i => mkT (toString i) ("song " ++ toString i)
    ("Z" ++ toString i) 50)

def ce6In : PreviewIn :=
  { catalog := a19 ++ [mkT "x" "happy day" "X" 30, mkT "y" "clear sky" "Y" 30]
    popularityFilter := some "mainstream", mood := some "happy", description := none
    genres := none, school := none
    rM1 := idR, rM2 := idR, rM3 := idR, rM4 := idR, rM5 := idR, rD := idR }

/-- C6 counterexample: the run returns the mood-titled track `x` although a
cap-eligible, mood-free, unused substitute `y` exists in the pool: the
second backfill (lines 818-862) takes pool tracks in pool order without
re-applying the mood filter, so "no substitute exists" is not what the
code guarantees. -/
theorem claim6_counterexample :
    ((mkT "x" "happy day" "X" 30) ∈ previewTracks ce6In ∧
      moodHit (primaryMoodOf ce6In.mood) (mkT "x" "happy day" "X" 30) = true) ∧
      (mkT "y" "clear sky" "Y" 30) ∈ poolOf ce6In ∧
        moodHit (primaryMoodOf ce6In.mood) (mkT "y" "clear sky" "Y" 30) = false ∧
        (mkT "y" "clear sky" "Y" 30).id ∉ (previewTracks ce6In).map Track.id ∧
        countRaw (previewTracks ce6In) (rawPrimary (mkT "y" "clear sky" "Y" 30)) < 3 := by
  exact ⟨⟨by decide, by decide⟩, by decide, by decide, by decide, by decide⟩

/-- C6 amended: a returned track whose title contains the mood word can
only have been contributed by the unfiltered backfills (the second
backfill of lines 818-862 or the fill loop of lines 887-933), which run
only when the track list was below `targetCount` after the mood-filtered
passes — after the first backfill, or again after the dedup/re-cap pass.
Those backfills draw from the pool in pool order without preferring
mood-free tracks, so a mood-titled track can be returned even when a
mood-free substitute exists (see the counterexample). -/
theorem claim6_amended (inp : PreviewIn) (t : Track) (ht : t ∈ previewTracks inp)
    (hmood : moodHit (primaryMoodOf inp.mood) t = true) :
    (afterH inp).length < 20 ∨ (afterJ inp).length < 20 := by
  by_contra hcon
  push_neg at hcon
  obtain ⟨hH, hJ⟩ := hcon
  have hI : stageI (poolOf inp) (afterH inp) = afterH inp :=
    stageI_of_ge _ _ (by omega)
  have hfill : fillLoopF (poolOf inp) 21 (afterJ inp, keyCounts (afterJ inp)) =
      afterJ inp := fillLoopF_of_ge _ 20 _ _ (by omega)
  rw [previewTracks_eq_tail, hfill] at ht
  have h1 := dedupSkipGo_subset _ _ ht
  have h2 := List.take_subset _ _ h1
  have h3 : t ∈ afterH inp := by
    have := stageJ_subset _ h2
    rwa [hI] at this
  have h4 : moodHit (primaryMoodOf inp.mood) t = false := by
    refine mem_stageH_not_mood _ _ _ (fun u hu => ?_) t h3
    exact mem_stageF_not_mood _ _ u (dedupGo_subset _ _ hu)
  rw [h4] at hmood
  cases hmood

theorem claim6_amended_witness :
    ((mkT "x" "happy day" "X" 30) ∈ previewTracks ce6In ∧
      moodHit (primaryMoodOf ce6In.mood) (mkT "x" "happy day" "X" 30) = true) ∧
      ((afterH ce6In).length < 20 ∨ (afterJ ce6In).length < 20) :=
  ⟨⟨by decide, by decide⟩,
    claim6_amended ce6In (mkT "x" "happy day" "X" 30) (by decide) (by decide)⟩

/-! ## C5 machinery: distinct ids through the selection stages -/

theorem nodupIds_sublist {l l2 : List Track} (hs : l.Sublist l2)
    (h : (l2.map Track.id).Nodup) : (l.map Track.id).Nodup :=
  h.sublist (hs.map Track.id)

theorem nodupIds_perm {l l2 : List Track} (h : List.Perm l l2)
    (h2 : (l2.map Track.id).Nodup) : (l.map Track.id).Nodup :=
  (h.map Track.id).nodup_iff.mpr h2

theorem nodupIds_append (A B : List Track) (hA : (A.map Track.id).Nodup)
    (hB : (B.map Track.id).Nodup) (hd : ∀ a ∈ A, ∀ b ∈ B, a.id ≠ b.id) :
    ((A ++ B).map Track.id).Nodup := by
  rw [List.map_append, List.nodup_append]
  refine ⟨hA, hB, ?_⟩
  intro x hx hy
  obtain ⟨a, ha, rfl⟩ := List.mem_map.mp hx
  obtain ⟨b, hb, he⟩ := List.mem_map.mp hy
  exact hd a ha b hb he.symm

theorem id_inj {pool : List Track} (hnd : (pool.map Track.id).Nodup)
    {a : Track} (ha : a ∈ pool) {b : Track} (hb : b ∈ pool) (he : a.id = b.id) : a = b :=
  List.inj_on_of_nodup_map hnd ha hb he

theorem tier_nodupIds (pool : List Track) (hnd : (pool.map Track.id).Nodup)
    (p : Track → Bool) (r : Nat → Nat) (c : Nat) :
    (((shuffleArray r (pool.filter p)).take c).map Track.id).Nodup :=
  nodupIds_sublist (List.take_sublist _ _)
    (nodupIds_perm (shuffleArray_perm r _)
      (nodupIds_sublist (List.filter_sublist pool) hnd))

theorem tier_mem (pool : List Track) (p : Track → Bool) (r : Nat → Nat) (c : Nat)
    (t : Track) (ht : t ∈ (shuffleArray r (pool.filter p)).take c) :
    t ∈ pool ∧ p t = true := by
  have h1 := (shuffleArray_perm r _).subset (List.take_subset _ _ ht)
  exact List.mem_filter.mp h1

theorem stageB_nodupIds (filter : String) (r1 r2 r3 r4 r5 : Nat → Nat) (pool : List Track)
    (hnd : (pool.map Track.id).Nodup) :
    ((stageB filter r1 r2 r3 r4 r5 pool).map Track.id).Nodup := by
  simp only [stageB]
  by_cases h1 : filter = "mainstream"
  · rw [if_pos h1]
    apply nodupIds_perm (List.perm_insertionSort mainLe _)
    split_ifs <;> exact nodupIds_sublist (List.filter_sublist pool) hnd
  · rw [if_neg h1]
    by_cases h2 : filter = "indie"
    · rw [if_pos h2]
      apply nodupIds_perm (List.perm_insertionSort indieLe _)
      split_ifs <;> exact nodupIds_sublist (List.filter_sublist pool) hnd
    · rw [if_neg h2]
      apply nodupIds_perm (shuffleArray_perm r5 _)
      have hbase : ∀ c1 c2 c3 : Nat,
          ((((shuffleArray r1 (pool.filter (fun t => decide (70 ≤ t.popularity)))).take c1 ++
            (shuffleArray r2 (pool.filter
              (fun t => decide (40 ≤ t.popularity ∧ t.popularity < 70)))).take c2) ++
            (shuffleArray r3 (pool.filter (fun t => decide (t.popularity < 40)))).take c3).map
              Track.id).Nodup := by
        intro c1 c2 c3
        apply nodupIds_append
        · apply nodupIds_append
          · exact tier_nodupIds pool hnd _ r1 c1
          · exact tier_nodupIds pool hnd _ r2 c2
          · intro a ha b hb he
            obtain ⟨hap, hac⟩ := tier_mem pool _ r1 c1 a ha
            obtain ⟨hbp, hbc⟩ := tier_mem pool _ r2 c2 b hb
            rw [id_inj hnd hap hbp he] at hac
            simp only [decide_eq_true_eq] at hac hbc
            omega
        · exact tier_nodupIds pool hnd _ r3 c3
        · intro a ha b hb he
          obtain ⟨hbp, hbc⟩ := tier_mem pool _ r3 c3 b hb
          rcases List.mem_append.mp ha with hm | hm
          · obtain ⟨hap, hac⟩ := tier_mem pool _ r1 c1 a hm
            rw [id_inj hnd hap hbp he] at hac
            simp only [decide_eq_true_eq] at hac hbc
            omega
          · obtain ⟨hap, hac⟩ := tier_mem pool _ r2 c2 a hm
            rw [id_inj hnd hap hbp he] at hac
            simp only [decide_eq_true_eq] at hac hbc
            omega
      split_ifs with hlen
      · apply nodupIds_append
        · exact hbase _ _ _
        · apply nodupIds_sublist (List.take_sublist _ _)
          apply nodupIds_perm (shuffleArray_perm r4 _)
          exact nodupIds_sublist (List.filter_sublist pool) hnd
        · intro a ha b hb he
          have hb2 := (shuffleArray_perm r4 _).subset (List.take_subset _ _ hb)
          rw [List.mem_filter] at hb2
          have := hb2.2
          simp only [decide_eq_true_eq] at this
          apply this
          rw [← he]
          exact List.mem_map.mpr ⟨a, ha, rfl⟩
      · exact hbase _ _ _

theorem stageC_nodupIds (detect : Option (String × List String)) (sf : Option String)
    (ftB : List Track) (hnd : (ftB.map Track.id).Nodup) :
    ((stageC detect sf ftB).map Track.id).Nodup := by
  cases detect with
  | none => simpa [stageC] using hnd
  | some kv =>
    obtain ⟨key, terms⟩ := kv
    simp only [stageC]
    by_cases h1 : terms.isEmpty = true
    · rw [if_pos h1]
      exact hnd
    · rw [if_neg h1]
      have hA : ((ftB.filter (isSchoolTrack (some (key, terms)) sf)).map Track.id).Nodup :=
        nodupIds_sublist (List.filter_sublist ftB) hnd
      have hB : ((ftB.filter
          (fun t => !(isSchoolTrack (some (key, terms)) sf t))).map Track.id).Nodup :=
        nodupIds_sublist (List.filter_sublist ftB) hnd
      have hdisj : ∀ a ∈ ftB.filter (isSchoolTrack (some (key, terms)) sf),
          ∀ b ∈ ftB.filter (fun t => !(isSchoolTrack (some (key, terms)) sf t)),
          a.id ≠ b.id := by
        intro a ha b hb he
        rw [List.mem_filter] at ha hb
        have hab := id_inj hnd ha.1 hb.1 he
        have ha2 := ha.2
        rw [hab] at ha2
        rw [ha2] at hb
        simpa using hb.2
      have hft2 : ∀ c1 c2 : Nat,
          ((((ftB.filter (isSchoolTrack (some (key, terms)) sf)).take c1 ++
            (ftB.filter (fun t => !(isSchoolTrack (some (key, terms)) sf t))).take c2).map
              Track.id).Nodup) := by
        intro c1 c2
        apply nodupIds_append
        · exact nodupIds_sublist (List.take_sublist _ _) hA
        · exact nodupIds_sublist (List.take_sublist _ _) hB
        · intro a ha b hb
          exact hdisj a (List.take_subset _ _ ha) b (List.take_subset _ _ hb)
      split_ifs with h2
      · apply nodupIds_append
        · exact hft2 _ _
        · apply nodupIds_sublist (List.take_sublist _ _)
          apply nodupIds_sublist (List.filter_sublist _)
          apply nodupIds_append
          · exact nodupIds_sublist (List.drop_sublist _ _) hA
          · exact nodupIds_sublist (List.drop_sublist _ _) hB
          · intro a ha b hb
            exact hdisj a (List.drop_subset _ _ ha) b (List.drop_subset _ _ hb)
        · intro a ha b hb he
          have hb2 := List.take_subset _ _ hb
          rw [List.mem_filter] at hb2
          have hb3 := hb2.2
          simp only [decide_eq_true_eq] at hb3
          apply hb3
          rw [← he]
          exact List.mem_map.mpr ⟨a, ha, rfl⟩
      · exact hft2 _ _

theorem stageD_nodupIds (detect : Option (String × List String)) (sf : Option String)
    (rD : Nat → Nat) (ft : List Track) (hnd : (ft.map Track.id).Nodup) :
    ((stageD detect sf rD ft).map Track.id).Nodup := by
  simp only [stageD]
  split_ifs with h1
  · cases detect with
    | none => exact nodupIds_perm (shuffleArray_perm rD ft) hnd
    | some kv =>
      obtain ⟨key, terms⟩ := kv
      dsimp only
      by_cases h2 : terms.isEmpty = true
      · rw [if_pos h2]
        exact nodupIds_perm (shuffleArray_perm rD ft) hnd
      · rw [if_neg h2]
        have hsIn : ((ft.filter (isSchoolTrack (some (key, terms)) sf)).map Track.id).Nodup :=
          nodupIds_sublist (List.filter_sublist ft) hnd
        apply nodupIds_append
        · exact nodupIds_sublist (List.take_sublist _ _) hsIn
        · apply nodupIds_perm (shuffleArray_perm rD _)
          apply nodupIds_append
          · exact nodupIds_sublist (List.drop_sublist _ _) hsIn
          · exact nodupIds_sublist (List.filter_sublist ft) hnd
          · intro a ha b hb he
            have ha2 := List.mem_filter.mp ((List.drop_subset _ _) ha)
            have hb2 := List.mem_filter.mp hb
            have hab := id_inj hnd ha2.1 hb2.1 he
            have ha3 := ha2.2
            rw [hab] at ha3
            rw [ha3] at hb2
            simpa using hb2.2
        · intro a ha b hb he
          have hb2 := (shuffleArray_perm rD _).subset hb
          rcases List.mem_append.mp hb2 with hm | hm
          · -- b comes from the dropped school tracks: same filtered list as a
            have hndS := hsIn
            have : ((ft.filter (isSchoolTrack (some (key, terms)) sf)).take
                (min 3 (ft.filter (isSchoolTrack (some (key, terms)) sf)).length) ++
                (ft.filter (isSchoolTrack (some (key, terms)) sf)).drop
                (min 3 (ft.filter (isSchoolTrack (some (key, terms)) sf)).length)).map
                Track.id = (ft.filter (isSchoolTrack (some (key, terms)) sf)).map
                Track.id := by rw [List.take_append_drop]
            have hsplit := hndS
            rw [← this] at hsplit
            rw [List.map_append, List.nodup_append] at hsplit
            exact hsplit.2.2 (List.mem_map.mpr ⟨a, ha, rfl⟩)
              (he ▸ List.mem_map.mpr ⟨b, hm, rfl⟩)
          · have ha2 := List.mem_filter.mp ((List.take_subset _ _) ha)
            have hb2 := List.mem_filter.mp hm
            have hab := id_inj hnd ha2.1 hb2.1 he
            have ha3 := ha2.2
            rw [hab] at ha3
            rw [ha3] at hb2
            simpa using hb2.2
  · exact hnd

/-! ## C5 machinery: prefix preservation through the finalize stages -/

theorem orderedInsert_skip (x : Track) : ∀ (A B : List Track),
    (∀ a ∈ A, ¬ prevLe x a) →
    List.orderedInsert prevLe x (A ++ B) = A ++ List.orderedInsert prevLe x B
  | [], _, _ => rfl
  | a :: A, B, h => by
    simp only [List.cons_append, List.orderedInsert, List.append_eq]
    rw [if_neg (h a (List.mem_cons_self a A)),
      orderedInsert_skip x A B (fun b hb => h b (List.mem_cons_of_mem a hb))]

theorem orderedInsert_front (x : Track) (B : List Track) (h : ∀ b ∈ B, prevLe x b) :
    List.orderedInsert prevLe x B = x :: B := by
  cases B with
  | nil => rfl
  | cons b B => 
    simp only [List.orderedInsert]
    rw [if_pos (h b (List.mem_cons_self b B))]

/-- The stable preview-URL sort is the stable partition: tracks with a
preview first (in relative order), then the rest (in relative order). -/
theorem insertionSort_prevLe_partition : ∀ l : List Track,
    List.insertionSort prevLe l =
      l.filter (fun t => t.previewUrl.isSome) ++ l.filter (fun t => !t.previewUrl.isSome)
  | [] => rfl
  | t :: l => by
    simp only [List.insertionSort]
    rw [insertionSort_prevLe_partition l]
    by_cases hp : t.previewUrl.isSome = true
    · have hall : ∀ y ∈ l.filter (fun t => t.previewUrl.isSome) ++
          l.filter (fun t => !t.previewUrl.isSome), prevLe t y := by
        intro y _
        simp [prevLe, hp]
      rw [orderedInsert_front _ _ hall]
      have e1 : List.filter (fun t => t.previewUrl.isSome) (t :: l) =
          t :: l.filter (fun t => t.previewUrl.isSome) := by
        rw [List.filter_cons, if_pos hp]
      have e2 : List.filter (fun t => !t.previewUrl.isSome) (t :: l) =
          l.filter (fun t => !t.previewUrl.isSome) := by
        rw [List.filter_cons, if_neg (by simp [hp])]
      rw [e1, e2, List.cons_append]
    · have hA : ∀ a ∈ l.filter (fun t => t.previewUrl.isSome), ¬ prevLe t a := by
        intro a ha
        rw [List.mem_filter] at ha
        simp [prevLe, ha.2, Bool.eq_false_iff.mpr hp]
      rw [orderedInsert_skip t _ _ hA]
      have hB : ∀ b ∈ l.filter (fun t => !t.previewUrl.isSome), prevLe t b := by
        intro b hb
        rw [List.mem_filter] at hb
        have hb2 : b.previewUrl.isSome = false := by simpa using hb.2
        simp [prevLe, hb2]
      rw [orderedInsert_front _ _ hB]
      have e1 : List.filter (fun t => t.previewUrl.isSome) (t :: l) =
          l.filter (fun t => t.previewUrl.isSome) := by
        rw [List.filter_cons, if_neg (by simpa using hp)]
      have e2 : List.filter (fun t => !t.previewUrl.isSome) (t :: l) =
          t :: l.filter (fun t => !t.previewUrl.isSome) := by
        rw [List.filter_cons, if_pos (by simpa using hp)]
      rw [e1, e2]

theorem front_decomp {X : List Track} {k : Nat} {pins : List Track}
    (h : X.take k = pins) : X = pins ++ X.drop k := by
  rw [← h, List.take_append_drop]

theorem len_le_of_take_eq {X pins : List Track} {k : Nat}
    (h : X.take k = pins) (hk : pins.length = k) : k ≤ X.length := by
  have := congrArg List.length h
  rw [List.length_take, hk] at this
  omega

theorem take_append_pins {u v pins : List Track} {k : Nat}
    (h : u.take k = pins) (hk : pins.length = k) : (u ++ v).take k = pins := by
  rw [List.take_append_of_le_length (len_le_of_take_eq h hk)]
  exact h

theorem take_pins_self {pins : List Track} {k : Nat} (hk : pins.length = k) :
    pins.take k = pins := by
  rw [← hk, List.take_length]

theorem take_m_front {X pins : List Track} {k : Nat} (m : Nat)
    (h : X.take k = pins) (hkm : k ≤ m) : (X.take m).take k = pins := by
  rw [List.take_take, min_eq_left hkm]
  exact h

theorem filter_front {X pins : List Track} {k : Nat} (p : Track → Bool)
    (h : X.take k = pins) (hk : pins.length = k) (hp : ∀ t ∈ pins, p t = true) :
    (X.filter p).take k = pins := by
  rw [front_decomp h, List.filter_append, List.filter_eq_self.mpr hp]
  exact take_append_pins (take_pins_self hk) hk

theorem sort_prevLe_front {X pins : List Track} {k : Nat}
    (h : X.take k = pins) (hk : pins.length = k)
    (hp : ∀ t ∈ pins, t.previewUrl.isSome = true) :
    (List.insertionSort prevLe X).take k = pins := by
  rw [insertionSort_prevLe_partition]
  have h1 : (X.filter (fun t => t.previewUrl.isSome)).take k = pins :=
    filter_front _ h hk hp
  exact take_append_pins h1 hk

theorem dedupSkipGo_front : ∀ (pins X : List Track) (seen : List String),
    X.take pins.length = pins → ((pins.map Track.id).Nodup) →
    (∀ t ∈ pins, t.id ≠ "") → (∀ t ∈ pins, t.id ∉ seen) →
    (dedupSkipGo seen X).take pins.length = pins
  | [], _, _, _, _, _, _ => by simp
  | t :: pins, X, seen, htake, hnd, hne, hns => by
    cases X with
    | nil => simp at htake
    | cons x X =>
      simp only [List.length_cons, List.take_succ_cons, List.cons.injEq] at htake
      obtain ⟨he, htake2⟩ := htake
      subst he
      rw [List.map_cons, List.nodup_cons] at hnd
      unfold dedupSkipGo
      rw [if_neg (by simpa using hne x (List.mem_cons_self x pins)),
        if_neg (by simpa using hns x (List.mem_cons_self x pins))]
      simp only [List.length_cons, List.take_succ_cons, List.cons.injEq]
      refine ⟨trivial, dedupSkipGo_front pins X (x.id :: seen) htake2 hnd.2
        (fun u hu => hne u (List.mem_cons_of_mem x hu)) ?_⟩
      intro u hu hmem
      rcases List.mem_cons.mp hmem with he | he
      · exact hnd.1 (he ▸ List.mem_map.mpr ⟨u, hu, rfl⟩)
      · exact hns u (List.mem_cons_of_mem x hu) he

theorem dedupGo_front : ∀ (pins X : List Track) (seen : List String),
    X.take pins.length = pins → ((pins.map Track.id).Nodup) →
    (∀ t ∈ pins, t.id ∉ seen) →
    (dedupGo seen X).take pins.length = pins
  | [], _, _, _, _, _ => by simp
  | t :: pins, X, seen, htake, hnd, hns => by
    cases X with
    | nil => simp at htake
    | cons x X =>
      simp only [List.length_cons, List.take_succ_cons, List.cons.injEq] at htake
      obtain ⟨he, htake2⟩ := htake
      subst he
      rw [List.map_cons, List.nodup_cons] at hnd
      unfold dedupGo
      rw [if_neg (by simpa using hns x (List.mem_cons_self x pins))]
      simp only [List.length_cons, List.take_succ_cons, List.cons.injEq]
      refine ⟨trivial, dedupGo_front pins X (x.id :: seen) htake2 hnd.2 ?_⟩
      intro u hu hmem
      rcases List.mem_cons.mp hmem with he | he
      · exact hnd.1 (he ▸ List.mem_map.mpr ⟨u, hu, rfl⟩)
      · exact hns u (List.mem_cons_of_mem x hu) he

theorem countKey_le_length (l : List Track) (k : String) : countKey l k ≤ l.length :=
  List.length_filter_le _ l

theorem stageJGo_skip_pins : ∀ (pins acc rest : List Track),
    (((acc ++ pins).map Track.id).Nodup) → acc.length + pins.length ≤ 3 →
    stageJGo acc (pins ++ rest) = stageJGo (acc ++ pins) rest
  | [], acc, rest, _, _ => by simp
  | t :: pins, acc, rest, hnd, hlen => by
    have h1 : ¬ t.id ∈ acc.map (fun u => u.id) := by
      intro hmem
      rw [List.map_append, List.nodup_append] at hnd
      exact hnd.2.2 hmem (List.mem_map.mpr ⟨t, List.mem_cons_self t pins, rfl⟩)
    have h2 : ¬ capBlocked (keyCounts acc) (mappedKey t) = true := by
      intro hcb
      simp only [capBlocked, Bool.and_eq_true, decide_eq_true_eq] at hcb
      have hle := countKey_le_length acc (mappedKey t)
      have : keyCounts acc (mappedKey t) ≤ acc.length := by
        unfold keyCounts
        split_ifs
        · omega
        · exact hle
      simp only [List.length_cons] at hlen
      omega
    have e1 : stageJGo acc ((t :: pins) ++ rest) = stageJGo (acc ++ [t]) (pins ++ rest) := by
      simp only [List.cons_append]
      rw [stageJGo]
      rw [if_neg h1, if_neg h2]
    rw [e1, stageJGo_skip_pins pins (acc ++ [t]) rest
      (by rwa [List.append_cons] at hnd)
      (by simp only [List.length_append, List.length_singleton]
          simp only [List.length_cons] at hlen
          omega), ← List.append_cons]

theorem stageJGo_acc_front : ∀ (rest acc : List Track),
    (stageJGo acc rest).take acc.length = acc
  | [], acc => by simp [stageJGo]
  | t :: rest, acc => by
    unfold stageJGo
    split_ifs with h1 h2
    · exact stageJGo_acc_front rest acc
    · exact stageJGo_acc_front rest acc
    · have hrec := stageJGo_acc_front rest (acc ++ [t])
      have h3 : (stageJGo (acc ++ [t]) rest).take acc.length =
          ((stageJGo (acc ++ [t]) rest).take (acc ++ [t]).length).take acc.length := by
        rw [List.take_take, min_eq_left (by simp)]
      rw [h3, hrec, List.take_append_of_le_length (Nat.le_refl _), List.take_length]

theorem stageJ_front (pins rest : List Track) (hnd : ((pins.map Track.id).Nodup))
    (hk : pins.length ≤ 3) : (stageJ (pins ++ rest)).take pins.length = pins := by
  unfold stageJ
  rw [stageJGo_skip_pins pins [] rest (by simpa using hnd) (by simpa using hk)]
  simpa using stageJGo_acc_front rest pins

theorem fillLoopF_ext (pool : List Track) : ∀ (fuel : Nat) (unique : List Track)
    (counts : String → Nat), ∃ ext, fillLoopF pool fuel (unique, counts) = unique ++ ext
  | 0, unique, counts => ⟨[], by simp [fillLoopF]⟩
  | fuel + 1, unique, counts => by
    simp only [fillLoopF]
    split_ifs with h1 h2
    · exact ⟨[], by simp⟩
    · obtain ⟨ext, he⟩ := fillLoopF_ext pool fuel (unique ++ fillBatch pool unique counts)
        (bumpAll counts (fillBatch pool unique counts))
      exact ⟨fillBatch pool unique counts ++ ext, by rw [he, List.append_assoc]⟩
    · exact ⟨[], by simp⟩

theorem stageH_ext (pm : String) (dedup unique : List Track) :
    ∃ ext, stageH pm dedup unique = unique ++ ext := by
  unfold stageH
  split_ifs
  · exact ⟨_, rfl⟩
  · exact ⟨[], by simp⟩

theorem stageI_ext (pool unique : List Track) :
    ∃ ext, stageI pool unique = unique ++ ext := by
  unfold stageI
  split_ifs
  · exact ⟨_, rfl⟩
  · exact ⟨[], by simp⟩

/-! ## C5: the pinned school prefix -/

theorem school_front_core (isS : Track → Bool) (A Bp extra : List Track)
    (hA : ∀ t ∈ A, isS t = true) (hB : ∀ t ∈ Bp, isS t = false)
    (hextra : ∀ t ∈ extra, t ∈ A.drop (min A.length 5) ∨ isS t = false) :
    ∀ t ∈ ((A.take (min A.length 5) ++ Bp) ++ extra).take
      (min 3 ((((A.take (min A.length 5) ++ Bp) ++ extra).filter isS).length)),
      isS t = true := by
  intro t ht
  by_cases h3 : 3 ≤ A.length
  · have hstc : 3 ≤ min A.length 5 := le_min h3 (by omega)
    have hlt : (A.take (min A.length 5)).length = min A.length 5 := by
      rw [List.length_take]
      omega
    have hk3 : min 3 ((((A.take (min A.length 5) ++ Bp) ++ extra).filter isS).length) ≤ 3 :=
      min_le_left _ _
    rw [List.take_append_of_le_length (by rw [List.length_append]; omega),
      List.take_append_of_le_length (by omega)] at ht
    exact hA t ((List.take_subset _ _) ((List.take_subset _ _) ht))
  · have hstc : min A.length 5 = A.length := min_eq_left (by omega)
    rw [hstc, List.take_length] at ht
    have hdrop : A.drop (min A.length 5) = [] := by rw [hstc, List.drop_length]
    have hex2 : ∀ u ∈ extra, isS u = false := by
      intro u hu
      rcases hextra u hu with hm | hm
      · rw [hdrop] at hm
        cases hm
      · exact hm
    have hfil : ((A ++ Bp) ++ extra).filter isS = A := by
      rw [List.filter_append, List.filter_append, List.filter_eq_self.mpr hA,
        List.filter_eq_nil_iff.mpr (fun b hb => by rw [hB b hb]; simp),
        List.filter_eq_nil_iff.mpr (fun u hu => by rw [hex2 u hu]; simp)]
      simp
    rw [hfil] at ht
    have hmin : min 3 A.length = A.length := min_eq_right (by omega)
    rw [hmin] at ht
    rw [List.take_append_of_le_length (by rw [List.length_append]; omega),
      List.take_append_of_le_length (Nat.le_refl _), List.take_length] at ht
    exact hA t ht

theorem stageC_pins (kv : String × List String) (sf : Option String) (ftB : List Track)
    (hterms : ¬ kv.2.isEmpty = true) :
    ∀ t ∈ (stageC (some kv) sf ftB).take
      (min 3 (((stageC (some kv) sf ftB).filter (isSchoolTrack (some kv) sf)).length)),
      isSchoolTrack (some kv) sf t = true := by
  obtain ⟨key, terms⟩ := kv
  simp only [stageC]
  rw [if_neg hterms]
  have hA : ∀ t ∈ ftB.filter (isSchoolTrack (some (key, terms)) sf),
      isSchoolTrack (some (key, terms)) sf t = true :=
    fun t ht => (List.mem_filter.mp ht).2
  have hB : ∀ t ∈ (ftB.filter
      (fun u => !(isSchoolTrack (some (key, terms)) sf u))).take
        (20 - min (ftB.filter (isSchoolTrack (some (key, terms)) sf)).length 5),
      isSchoolTrack (some (key, terms)) sf t = false := by
    intro t ht
    have := (List.mem_filter.mp (List.take_subset _ _ ht)).2
    simpa using this
  split_ifs with h2
  · apply school_front_core (isSchoolTrack (some (key, terms)) sf) _ _ _ hA hB
    intro t ht
    have h3 := List.take_subset _ _ ht
    have h4 := filterSub _ _ h3
    rcases List.mem_append.mp h4 with hm | hm
    · exact Or.inl hm
    · right
      have := (List.mem_filter.mp (List.drop_subset _ _ hm)).2
      simpa using this
  · have := school_front_core (isSchoolTrack (some (key, terms)) sf)
      (ftB.filter (isSchoolTrack (some (key, terms)) sf))
      ((ftB.filter (fun u => !(isSchoolTrack (some (key, terms)) sf u))).take
        (20 - min (ftB.filter (isSchoolTrack (some (key, terms)) sf)).length 5))
      [] hA hB (by simp)
    simpa using this

theorem stageD_pins (kv : String × List String) (sf : Option String) (rD : Nat → Nat)
    (ft : List Track) (hterms : ¬ kv.2.isEmpty = true)
    (hft : ∀ t ∈ ft.take (min 3 ((ft.filter (isSchoolTrack (some kv) sf)).length)),
      isSchoolTrack (some kv) sf t = true) :
    ∀ t ∈ (stageD (some kv) sf rD ft).take
      (min 3 (((stageD (some kv) sf rD ft).filter (isSchoolTrack (some kv) sf)).length)),
      isSchoolTrack (some kv) sf t = true := by
  obtain ⟨key, terms⟩ := kv
  simp only [stageD]
  split_ifs with h1
  · set isS := isSchoolTrack (some (key, terms)) sf with hisS
    set sIn := ft.filter isS with hsIn
    set nIn := ft.filter (fun t => !(isS t)) with hnIn
    set keep := min 3 sIn.length with hkeep
    have hsInS : ∀ t ∈ sIn, isS t = true := fun t ht => (List.mem_filter.mp ht).2
    have hnInS : ∀ t ∈ nIn, isS t = false := by
      intro t ht
      have := (List.mem_filter.mp ht).2
      simpa using this
    have hperm : List.Perm (sIn.take keep ++ shuffleArray rD (sIn.drop keep ++ nIn))
        (sIn ++ nIn) := by
      have p1 := (shuffleArray_perm rD (sIn.drop keep ++ nIn)).append_left (sIn.take keep)
      have p2 : sIn.take keep ++ (sIn.drop keep ++ nIn) = (sIn.take keep ++ sIn.drop keep) ++
          nIn := by rw [List.append_assoc]
      rw [p2, List.take_append_drop] at p1
      exact p1
    have hflen : (((sIn.take keep ++ shuffleArray rD (sIn.drop keep ++ nIn)).filter
        isS).length) = sIn.length := by
      rw [(hperm.filter isS).length_eq, List.filter_append,
        List.filter_eq_self.mpr hsInS,
        List.filter_eq_nil_iff.mpr (fun b hb => by rw [hnInS b hb]; simp)]
      simp
    rw [hflen]
    intro t ht
    have hkle : keep ≤ (sIn.take keep).length := by
      rw [List.length_take]
      omega
    rw [← hkeep, List.take_append_of_le_length hkle] at ht
    exact hsInS t ((List.take_subset _ _) ((List.take_subset _ _) ht))
  · exact hft

/-- The list after the final shuffle stage (`shuffledTracks`, line 698),
whose leading school tracks are the pinned entries. -/
def shuffledOf (inp : PreviewIn) : List Track :=
  stageD (detectSchool inp.school (descriptionOf inp.description)) inp.school inp.rD
    (stageC (detectSchool inp.school (descriptionOf inp.description)) inp.school
      (stageB (filterOf inp.popularityFilter) inp.rM1 inp.rM2 inp.rM3 inp.rM4 inp.rM5
        (poolOf inp)))

/-- Number of pinned school tracks: `min(3, school tracks in the shuffled
list)` (the source's `keepSchoolCount`, line 688). -/
def pinCount (inp : PreviewIn) (kv : String × List String) : Nat :=
  min 3 (((shuffledOf inp).filter (isSchoolTrack (some kv) inp.school)).length)

/-- The pinned school tracks themselves. -/
def pinsOf (inp : PreviewIn) (kv : String × List String) : List Track :=
  (shuffledOf inp).take (pinCount inp kv)

/-- Input for the C5 counterexample: a Duke run with 4 school tracks and 3
other tracks; the final-shuffle draws move a non-school track into
position 3 although `min(5, 4) = 4` positions should be school tracks. -/
def ce5In : PreviewIn :=
  { catalog :=
      [mkT "s1" "Duke one" "P1" 50, mkT "s2" "Duke two" "P2" 50,
       mkT "s3" "Duke three" "P3" 50, mkT "s4" "Duke four" "P4" 50,
       mkT "n1" "Other one" "Q1" 50, mkT "n2" "Other two" "Q2" 50,
       mkT "n3" "Other three" "Q3" 50]
    popularityFilter := some "mainstream", mood := none, description := none
    genres := none, school := some "Duke University"
    rM1 := idR, rM2 := idR, rM3 := idR, rM4 := idR, rM5 := idR, rD := zR }

/-- C5 counterexample: the school is detected and the pool holds 4
landmark-matching tracks, so the claim requires the first `min(5, 4) = 4`
returned entries to be landmark tracks — but entry 3 of the returned list
is not one.  The final shuffle (lines 680-696) pins only
`keepSchoolCount = min(3, …)` school tracks and re-shuffles the rest,
school tracks included. -/
theorem claim5_counterexample :
    (detectSchool ce5In.school (descriptionOf ce5In.description)).isSome = true ∧
      min 5 (((poolOf ce5In).filter (isSchoolTrack
        (detectSchool ce5In.school (descriptionOf ce5In.description))
        ce5In.school)).length) = 4 ∧
      4 ≤ (previewTracks ce5In).length ∧
      isSchoolTrack (detectSchool ce5In.school (descriptionOf ce5In.description))
        ce5In.school ((previewTracks ce5In).getD 3 default) = false :=
  ⟨by decide, by decide, by decide, by decide⟩

/-- C5 amended: when a school is detected, the pinned block is
`min(3, school tracks present)` entries — not `min(5, …)` — and it leads
the returned list, in pinned order, provided the pinned tracks carry
preview URLs and their titles avoid the mood word (otherwise the
preview-URL priority sort of lines 744-750 or the mood filter of lines
718-730 can displace or drop them). -/
theorem claim5_amended (inp : PreviewIn) (kv : String × List String)
    (hdet : detectSchool inp.school (descriptionOf inp.description) = some kv)
    (hterms : ¬ kv.2.isEmpty = true)
    (hprev : ∀ t ∈ pinsOf inp kv, t.previewUrl.isSome = true)
    (hmood : ∀ t ∈ pinsOf inp kv, moodHit (primaryMoodOf inp.mood) t = false) :
    (previewTracks inp).take (pinCount inp kv) = pinsOf inp kv ∧
      ∀ t ∈ pinsOf inp kv, isSchoolTrack (some kv) inp.school t = true := by
  have hk3 : pinCount inp kv ≤ 3 := min_le_left _ _
  have hkS : pinCount inp kv ≤ (shuffledOf inp).length :=
    le_trans (min_le_right _ _) (List.length_filter_le _ _)
  have hpl : (pinsOf inp kv).length = pinCount inp kv := by
    unfold pinsOf
    rw [List.length_take]
    exact min_eq_left hkS
  have hS : shuffledOf inp = stageD (some kv) inp.school inp.rD
      (stageC (some kv) inp.school (stageB (filterOf inp.popularityFilter)
        inp.rM1 inp.rM2 inp.rM3 inp.rM4 inp.rM5 (poolOf inp))) := by
    unfold shuffledOf
    rw [hdet]
  have hpinsS : ∀ t ∈ pinsOf inp kv, isSchoolTrack (some kv) inp.school t = true := by
    have hcp := stageC_pins kv inp.school (stageB (filterOf inp.popularityFilter)
      inp.rM1 inp.rM2 inp.rM3 inp.rM4 inp.rM5 (poolOf inp)) hterms
    have hdp := stageD_pins kv inp.school inp.rD _ hterms hcp
    unfold pinsOf pinCount
    rw [hS]
    exact hdp
  have hpinsPool : ∀ t ∈ pinsOf inp kv, t ∈ poolOf inp := by
    intro t ht
    have h1 := List.take_subset _ _ ht
    have h2 := stageD_subset _ _ _ _ h1
    have h3 := stageC_subset _ _ _ h2
    exact stageB_subset _ _ _ _ _ _ _ h3
  have hpid : ∀ t ∈ pinsOf inp kv, t.id ≠ "" :=
    fun t ht => (poolOf_poolInv inp).1.2 t (hpinsPool t ht)
  have hpnd : ((pinsOf inp kv).map Track.id).Nodup := by
    apply nodupIds_sublist (List.take_sublist _ _)
    exact stageD_nodupIds _ _ _ _ (stageC_nodupIds _ _ _
      (stageB_nodupIds _ _ _ _ _ _ _ (poolOf_poolInv inp).1.1))
  have hmood2 : ∀ t ∈ pinsOf inp kv, (!moodHit (primaryMoodOf inp.mood) t) = true := by
    intro t ht
    rw [hmood t ht]
    rfl
  have c0 : (shuffledOf inp).take (pinCount inp kv) = pinsOf inp kv := rfl
  have c1 : (dedupOf inp).take (pinCount inp kv) = pinsOf inp kv := by
    have h := dedupSkipGo_front (pinsOf inp kv) (shuffledOf inp) []
      (by rw [hpl]; exact c0) hpnd hpid (by simp)
    rw [hpl] at h
    exact h
  have c2 : (stageF (primaryMoodOf inp.mood) (dedupOf inp)).take (pinCount inp kv) =
      pinsOf inp kv := by
    unfold stageF
    refine take_m_front 20 (sort_prevLe_front (filter_front _
      (take_m_front 40 (filter_front _ (take_m_front 30 c1 (by omega)) hpl hmood2)
        (by omega)) hpl (fun t ht => decide_eq_true (hpid t ht))) hpl hprev) (by omega)
  have c3 : (stageG (stageF (primaryMoodOf inp.mood) (dedupOf inp))).take
      (pinCount inp kv) = pinsOf inp kv := by
    have h := dedupGo_front (pinsOf inp kv) _ [] (by rw [hpl]; exact c2) hpnd (by simp)
    rw [hpl] at h
    exact h
  have c4 : (afterH inp).take (pinCount inp kv) = pinsOf inp kv := by
    obtain ⟨ext4, he4⟩ := stageH_ext (primaryMoodOf inp.mood) (dedupOf inp)
      (stageG (stageF (primaryMoodOf inp.mood) (dedupOf inp)))
    show (stageH (primaryMoodOf inp.mood) (dedupOf inp)
      (stageG (stageF (primaryMoodOf inp.mood) (dedupOf inp)))).take (pinCount inp kv) =
      pinsOf inp kv
    rw [he4]
    exact take_append_pins c3 hpl
  have c5 : (stageI (poolOf inp) (afterH inp)).take (pinCount inp kv) = pinsOf inp kv := by
    obtain ⟨ext5, he5⟩ := stageI_ext (poolOf inp) (afterH inp)
    rw [he5]
    exact take_append_pins c4 hpl
  have c6 : (afterJ inp).take (pinCount inp kv) = pinsOf inp kv := by
    have hX : stageI (poolOf inp) (afterH inp) = pinsOf inp kv ++
        (stageI (poolOf inp) (afterH inp)).drop (pinsOf inp kv).length :=
      front_decomp (by rw [hpl]; exact c5)
    have h := stageJ_front (pinsOf inp kv) ((stageI (poolOf inp) (afterH inp)).drop
      (pinsOf inp kv).length) hpnd (by rw [hpl]; exact hk3)
    rw [← hX] at h
    rw [hpl] at h
    exact h
  have c7 : ((fillLoopF (poolOf inp) 21 (afterJ inp, keyCounts (afterJ inp)))).take
      (pinCount inp kv) = pinsOf inp kv := by
    obtain ⟨ext7, he7⟩ := fillLoopF_ext (poolOf inp) 21 (afterJ inp) (keyCounts (afterJ inp))
    rw [he7]
    exact take_append_pins c6 hpl
  have c9 : (previewTracks inp).take (pinCount inp kv) = pinsOf inp kv := by
    rw [previewTracks_eq_tail]
    have h := dedupSkipGo_front (pinsOf inp kv)
      ((fillLoopF (poolOf inp) 21 (afterJ inp, keyCounts (afterJ inp))).take 20) []
      (by rw [hpl]; exact take_m_front 20 c7 (by omega)) hpnd hpid (by simp)
    rw [hpl] at h
    exact h
  exact ⟨c9, hpinsS⟩

/-- Witness input: one Duke anthem with a preview URL plus two other
tracks — the anthem leads the returned list (spec scenario 4). -/
def w5In : PreviewIn :=
  { catalog := [mkT "n1" "Other one" "Q1" 50, mkT "n2" "Other two" "Q2" 50,
      ⟨"s1", "Duke anthem", ["P1"], "", some "u", 50⟩]
    popularityFilter := some "mainstream", mood := none, description := none
    genres := none, school := some "Duke University"
    rM1 := idR, rM2 := idR, rM3 := idR, rM4 := idR, rM5 := idR, rD := zR }

def w5Kv : String × List String :=
  ("duke university", ["Duke", "Blue Devil", "Duke Blue Devils"])

theorem claim5_amended_witness :
    detectSchool w5In.school (descriptionOf w5In.description) = some w5Kv ∧
      (previewTracks w5In).take (pinCount w5In w5Kv) = pinsOf w5In w5Kv ∧
      ∀ t ∈ pinsOf w5In w5Kv, isSchoolTrack (some w5Kv) w5In.school t = true := by
  have h := claim5_amended w5In w5Kv (by decide) (by decide) (by decide) (by decide)
  exact ⟨by decide, h.1, h.2⟩

end DJ
